import Mathlib

/-!
# Verification of the Clive league tracker's standings and Swiss-pairing engine

Shallow embedding of the `LeagueManager` class of `cubesocietybot.py`.
The Python `self.data` dict (player id → record) is modelled as an
insertion-ordered association list with unique keys; dict assignment to a
present key updates in place, assignment to an absent key appends at the
end, exactly as CPython dicts behave.  File persistence (`save`) is I/O
with no effect on the in-memory state and is not modelled.
-/

/-- A player record: the Python dict
`{"points": int, "opponents": [...], "received_bye": bool}`. -/
structure Player where
  points : Int
  opponents : List String
  received_bye : Bool
deriving DecidableEq, Repr

/-- The `self.data` mapping, as an insertion-ordered association list. -/
abbrev League := List (String × Player)

/-- Dict lookup `self.data[k]` (as an `Option`, `none` for a missing key). -/
def lget : League → String → Option Player
  | [], _ => none
  | (k', v) :: rest, k => if k' = k then some v else lget rest k

/-- Dict assignment `self.data[k] = v`: update in place if the key is
present, append at the end otherwise. -/
def lset : League → String → Player → League
  | [], k, v => [(k, v)]
  | (k', v') :: rest, k, v =>
      if k' = k then (k, v) :: rest else (k', v') :: lset rest k v

/-- Dict deletion `del self.data[k]`. -/
def ldel : League → String → League
  | [], _ => []
  | (k', v') :: rest, k => if k' = k then rest else (k', v') :: ldel rest k

/-- `LeagueManager.add_player`: returns the new state and the Bool result. -/
def add_player (d : League) (uid : String) : League × Bool :=
  if (lget d uid).isSome then (d, false)
  else (lset d uid ⟨0, [], false⟩, true)

/-- `LeagueManager.remove_player`. -/
def remove_player (d : League) (uid : String) : League × Bool :=
  if (lget d uid).isSome then (ldel d uid, true) else (d, false)

/-- `LeagueManager.add_points`: implicit creation of a missing player,
then `self.data[user_id]["points"] += pts`. -/
def add_points (d : League) (uid : String) (pts : Int) : League :=
  let d1 := if (lget d uid).isSome then d else (add_player d uid).1
  match lget d1 uid with
  | some p => lset d1 uid { p with points := p.points + pts }
  | none => d1

/-- Lexicographic `≤` on lists of characters: the order Python uses to
compare the identifier strings in the sort key. -/
def listLe : List Char → List Char → Bool
  | [], _ => true
  | _ :: _, [] => false
  | c :: cs, d :: ds =>
      if c < d then true else if d < c then false else listLe cs ds

/-- The sort key order of `standings`: Python's
`key=lambda x: (-x[1]["points"], x[0])` compared ascending, i.e. entry `a`
comes no later than `b` iff `a` has more points, or equal points and
`a`'s id is lexicographically ≤ `b`'s id. -/
def stOrder (a b : String × Player) : Prop :=
  b.2.points < a.2.points ∨
    (a.2.points = b.2.points ∧ listLe a.1.data b.1.data = true)

instance stOrderDec : DecidableRel stOrder := fun _ _ =>
  inferInstanceAs (Decidable (_ ∨ _ ∧ _))

/-- The strict version of `stOrder`: entry `a` ranks strictly before `b`
(more points, or equal points and a strictly smaller id). -/
def stStrict (a b : String × Player) : Prop :=
  b.2.points < a.2.points ∨
    (a.2.points = b.2.points ∧ listLe a.1.data b.1.data = true ∧ a.1 ≠ b.1)

instance stStrictDec : DecidableRel stStrict := fun _ _ =>
  inferInstanceAs (Decidable (_ ∨ _ ∧ _ ∧ _))

/-- `LeagueManager.standings`: `sorted(self.data.items(), key=...)`.
With unique ids the key order is total and antisymmetric on the entries
present, so any correct (in particular any stable) sort produces the same
list as Python's `sorted`. -/
def standings (d : League) : League :=
  List.insertionSort stOrder d

/-- `self.data[p]["opponents"]` (empty for a missing key; in the pairing
loop the key is always present). -/
def opponentsOf (d : League) (p : String) : List String :=
  ((lget d p).map Player.opponents).getD []

/-- Append `opp` to `self.data[p1]["opponents"]`. -/
def appendOpp (d : League) (p1 opp : String) : League :=
  match lget d p1 with
  | some pl => lset d p1 { pl with opponents := pl.opponents ++ [opp] }
  | none => d

/-- The inner scan of `swiss_pairings`: the first `p2` in the remaining
sorted list that is not `used` and not in `p1`'s current opponents. -/
def findOpp (d : League) (p1 : String) (used : List String) :
    List String → Option String
  | [] => none
  | p2 :: rest =>
      if p2 ∈ used then findOpp d p1 used rest
      else if p2 ∈ opponentsOf d p1 then findOpp d p1 used rest
      else some p2

/-- The outer scan of `swiss_pairings` over the sorted player ids,
threading the mutated data, the `used` set and the accumulated pairs.
`if opponent:` in Python is a truthiness test: a found opponent whose id
is the empty string is discarded. -/
def swissLoop (d : League) (used : List String)
    (pairs : List (String × String)) :
    List String → League × List String × List (String × String)
  | [] => (d, used, pairs)
  | p1 :: rest =>
      if p1 ∈ used then swissLoop d used pairs rest
      else
        match findOpp d p1 used rest with
        | some opp =>
            if opp ≠ "" then
              swissLoop (appendOpp (appendOpp d p1 opp) opp p1)
                (p1 :: opp :: used) (pairs ++ [(p1, opp)]) rest
            else swissLoop d used pairs rest
        | none => swissLoop d used pairs rest

/-- Set `self.data[uid]["received_bye"] = True`. -/
def setBye (d : League) (uid : String) : League :=
  match lget d uid with
  | some pl => lset d uid { pl with received_bye := true }
  | none => d

/-- `LeagueManager.swiss_pairings`: returns the new state and the pairing
list; a `none` second component denotes a bye. -/
def swiss_pairings (d : League) : League × List (String × Option String) :=
  let players := (standings d).map Prod.fst
  let t := swissLoop d [] [] players
  let pairings := t.2.2.map (fun q => (q.1, some q.2))
  let leftovers := players.filter (fun p => p ∉ t.2.1)
  match leftovers with
  | [] => (t.1, pairings)
  | bye :: _ =>
      let d2 := add_points t.1 bye 3
      let d3 := setBye d2 bye
      (d3, pairings ++ [(bye, none)])

/-- Pair up a ranked list two at a time: the pairing `swiss_pairings`
produces on a history-free league. -/
def chunkPairs : List String → List (String × String)
  | a :: b :: rest => (a, b) :: chunkPairs rest
  | _ => []

/-- The elements of a ranked list that `chunkPairs` pairs up (all of them
when the length is even, all but the last when it is odd). -/
def evenTake : List String → List String
  | a :: b :: rest => a :: b :: evenTake rest
  | _ => []

/-- States reachable from the empty league by any sequence of the four
mutating operations. -/
inductive Reach : League → Prop
  | empty : Reach []
  | add {d} (id : String) : Reach d → Reach (add_player d id).1
  | remove {d} (id : String) : Reach d → Reach (remove_player d id).1
  | points {d} (id : String) (pts : Int) : Reach d → Reach (add_points d id pts)
  | swiss {d} : Reach d → Reach (swiss_pairings d).1

/-- States reachable from the empty league without ever calling
`remove_player`. -/
inductive ReachNR : League → Prop
  | empty : ReachNR []
  | add {d} (id : String) : ReachNR d → ReachNR (add_player d id).1
  | points {d} (id : String) (pts : Int) :
      ReachNR d → ReachNR (add_points d id pts)
  | swiss {d} : ReachNR d → ReachNR (swiss_pairings d).1

/-- The player ids of a league state, in insertion order. -/
def keysOf (d : League) : List String := d.map Prod.fst

/-- No player record lists the player's own id among its opponents. -/
def NoSelf (d : League) : Prop :=
  ∀ k pl, lget d k = some pl → k ∉ pl.opponents

/-- Every opponents list is duplicate-free. -/
def OppNodup (d : League) : Prop :=
  ∀ k pl, lget d k = some pl → pl.opponents.Nodup

/-- Every id listed as an opponent is a key of the league. -/
def OppClosed (d : League) : Prop :=
  ∀ k pl, lget d k = some pl → ∀ q ∈ pl.opponents, q ∈ keysOf d

/-- Opponent history is symmetric. -/
def OppSymm (d : League) : Prop :=
  ∀ k1 pl1 k2 pl2, lget d k1 = some pl1 → lget d k2 = some pl2 →
    k2 ∈ pl1.opponents → k1 ∈ pl2.opponents

/-- The invariants maintained by every operation. -/
def LeagueInv (d : League) : Prop := (keysOf d).Nodup ∧ NoSelf d

/-- The stronger invariants maintained when `remove_player` is never
used. -/
def LeagueInvNR (d : League) : Prop :=
  LeagueInv d ∧ OppNodup d ∧ OppClosed d ∧ OppSymm d

/-- Iterated invocation of `swiss_pairings`, keeping only the state. -/
def iterSwiss (d : League) : Nat → League
  | 0 => d
  | n + 1 => (swiss_pairings (iterSwiss d n)).1

/-- Forget every `received_bye` flag. -/
def stripBye (p : Player) : Player := { p with received_bye := false }

/-- Two league states that agree on everything except possibly the
`received_bye` flags. -/
def ByeAgnostic (d1 d2 : League) : Prop :=
  ∀ k, (lget d1 k).map stripBye = (lget d2 k).map stripBye

/-- Reset every `received_bye` flag of a league in place. -/
def eraseBye (d : League) : League :=
  d.map (fun e => (e.1, stripBye e.2))

/-- A two-player league with no history in which the second-ranked player
has the empty string as id. -/
def c1map : League := [("p", ⟨3, [], false⟩), ("", ⟨0, [], false⟩)]

/-- A four-player league where the two bottom players already faced each
other, leaving two players unmatched. -/
def c2map : League :=
  [("a", ⟨0, [], false⟩), ("b", ⟨0, [], false⟩),
   ("c", ⟨0, ["d"], false⟩), ("d", ⟨0, ["c"], false⟩)]

/-- The league state produced by: add a, add b, pair a round, remove a,
re-add a, pair another round. -/
def c5state : League :=
  (swiss_pairings (add_player (remove_player (swiss_pairings
    (add_player (add_player [] "a").1 "b").1).1 "a").1 "a").1).1

/-- A two-player league where the only eligible opponent of the top
player carries the empty string as id. -/
def c9map : League := [("x", ⟨3, [], false⟩), ("", ⟨0, [], false⟩)]

/-! ## The standings order -/

theorem listLe_refl : ∀ a, listLe a a = true
  | [] => rfl
  | c :: cs => by simp [listLe, listLe_refl cs]

theorem listLe_total : ∀ a b, listLe a b = true ∨ listLe b a = true
  | [], _ => Or.inl rfl
  | _ :: _, [] => Or.inr rfl
  | c :: cs, d :: ds => by
      rcases lt_trichotomy c d with h | h | h
      · exact Or.inl (by simp [listLe, h])
      · subst h
        rcases listLe_total cs ds with h' | h'
        · exact Or.inl (by simp [listLe, h'])
        · exact Or.inr (by simp [listLe, h'])
      · exact Or.inr (by simp [listLe, h])

theorem listLe_trans :
    ∀ a b c, listLe a b = true → listLe b c = true → listLe a c = true
  | [], _, _, _, _ => rfl
  | x :: xs, [], _, h, _ => by simp [listLe] at h
  | _ :: _, _ :: _, [], _, h => by simp [listLe] at h
  | x :: xs, y :: ys, z :: zs, h1, h2 => by
      by_cases hxy : x < y
      · by_cases hyz : y < z
        · simp [listLe, hxy.trans hyz]
        · simp [listLe, hyz] at h2
          have hyz' : y = z := le_antisymm h2.1 (not_lt.mp hyz)
          subst hyz'
          simp [listLe, hxy]
      · simp [listLe, hxy] at h1
        have hxy' : x = y := le_antisymm h1.1 (not_lt.mp hxy)
        subst hxy'
        by_cases hyz : x < z
        · simp [listLe, hyz]
        · simp [listLe, hyz] at h2
          simp [listLe, hyz, h2.1, listLe_trans xs ys zs h1.2 h2.2]

theorem listLe_antisymm :
    ∀ a b, listLe a b = true → listLe b a = true → a = b
  | [], [], _, _ => rfl
  | [], _ :: _, _, h => by simp [listLe] at h
  | _ :: _, [], h, _ => by simp [listLe] at h
  | x :: xs, y :: ys, h1, h2 => by
      by_cases hxy : x < y
      · simp [listLe, hxy] at h2
        exact absurd h2 (lt_asymm hxy)
      · simp [listLe, hxy] at h1
        have hxy' : x = y := le_antisymm h1.1 (not_lt.mp hxy)
        subst hxy'
        simp [listLe, lt_irrefl] at h2
        rw [listLe_antisymm xs ys h1.2 h2]

instance : IsTotal (String × Player) stOrder where
  total a b := by
    unfold stOrder
    rcases lt_trichotomy a.2.points b.2.points with h | h | h
    · exact Or.inr (Or.inl h)
    · rcases listLe_total a.1.data b.1.data with h' | h'
      · exact Or.inl (Or.inr ⟨h, h'⟩)
      · exact Or.inr (Or.inr ⟨h.symm, h'⟩)
    · exact Or.inl (Or.inl h)

instance : IsTrans (String × Player) stOrder where
  trans a b c hab hbc := by
    unfold stOrder at *
    rcases hab with h1 | ⟨h1, h1'⟩
    · rcases hbc with h2 | ⟨h2, h2'⟩
      · exact Or.inl (h2.trans h1)
      · exact Or.inl (h2 ▸ h1)
    · rcases hbc with h2 | ⟨h2, h2'⟩
      · exact Or.inl (h1 ▸ h2)
      · exact Or.inr ⟨h1.trans h2, listLe_trans _ _ _ h1' h2'⟩

/-! ## Association-list lemmas -/

theorem lget_lset (d : League) (k : String) (v : Player) (k' : String) :
    lget (lset d k v) k' = if k = k' then some v else lget d k' := by
  induction d with
  | nil => simp [lget, lset]
  | cons e rest ih =>
      obtain ⟨a, b⟩ := e
      by_cases hak : a = k
      · subst hak
        by_cases hk' : a = k' <;> simp [lget, lset, hk']
      · by_cases hk' : a = k'
        · subst hk'
          simp [lget, lset, hak, Ne.symm hak]
        · simp [lget, lset, hak, hk', ih]

theorem lget_mem {d : League} {k : String} {v : Player}
    (h : lget d k = some v) : (k, v) ∈ d := by
  induction d with
  | nil => simp [lget] at h
  | cons e rest ih =>
      obtain ⟨a, b⟩ := e
      by_cases hak : a = k
      · subst hak
        simp [lget] at h
        simp [h]
      · simp [lget, hak] at h
        exact List.mem_cons_of_mem _ (ih h)

theorem lget_eq_none_iff {d : League} {k : String} :
    lget d k = none ↔ k ∉ keysOf d := by
  induction d with
  | nil => simp [lget, keysOf]
  | cons e rest ih =>
      obtain ⟨a, b⟩ := e
      by_cases hak : a = k
      · subst hak
        simp [lget, keysOf]
      · simp [lget, keysOf, hak, Ne.symm hak] at *
        exact ih

theorem lget_isSome_iff {d : League} {k : String} :
    (lget d k).isSome ↔ k ∈ keysOf d := by
  cases ho : lget d k with
  | none => simp [lget_eq_none_iff.mp ho]
  | some v =>
      simp only [Option.isSome_some, true_iff]
      exact List.mem_map.mpr ⟨(k, v), lget_mem ho, rfl⟩

theorem mem_lget {d : League} {k : String} {v : Player}
    (hnd : (keysOf d).Nodup) (h : (k, v) ∈ d) : lget d k = some v := by
  induction d with
  | nil => simp at h
  | cons e rest ih =>
      obtain ⟨a, b⟩ := e
      simp [keysOf] at hnd
      rcases List.mem_cons.mp h with h1 | h1
      · injection h1 with hk hv
        subst hk; subst hv
        simp [lget]
      · have hak : a ≠ k := by
          rintro rfl
          exact hnd.1 v h1
        simp [lget, hak]
        exact ih hnd.2 h1

theorem lset_of_absent {d : League} {k : String} (v : Player)
    (h : lget d k = none) : lset d k v = d ++ [(k, v)] := by
  induction d with
  | nil => simp [lset]
  | cons e rest ih =>
      obtain ⟨a, b⟩ := e
      by_cases hak : a = k
      · subst hak; simp [lget] at h
      · simp [lget, hak] at h
        simp [lset, hak, ih h]

theorem keysOf_lset_of_mem {d : League} {k : String} (v : Player)
    (h : (lget d k).isSome) : keysOf (lset d k v) = keysOf d := by
  induction d with
  | nil => simp [lget] at h
  | cons e rest ih =>
      obtain ⟨a, b⟩ := e
      by_cases hak : a = k
      · subst hak; simp [lset, keysOf]
      · simp [lget, hak] at h
        simp [lset, keysOf, hak] at ih ⊢
        exact ih h

theorem keysOf_lset_nodup {d : League} {k : String} (v : Player)
    (hnd : (keysOf d).Nodup) : (keysOf (lset d k v)).Nodup := by
  cases h : lget d k with
  | some pl => rwa [keysOf_lset_of_mem v (by simp [h])]
  | none =>
      rw [lset_of_absent v h]
      have hk : k ∉ keysOf d := lget_eq_none_iff.mp h
      simp only [keysOf, List.map_append, List.map_cons, List.map_nil]
      rw [List.nodup_append]
      exact ⟨hnd, List.nodup_singleton _, by
        intro x hx hx'
        simp at hx'
        subst hx'
        exact hk hx⟩

theorem ldel_sublist (d : League) (k : String) : (ldel d k).Sublist d := by
  induction d with
  | nil => simp [ldel]
  | cons e rest ih =>
      obtain ⟨a, b⟩ := e
      by_cases hak : a = k
      · simp [ldel, hak]
      · simp only [ldel, hak, if_false]
        exact ih.cons₂ _

theorem keysOf_ldel_nodup {d : League} {k : String}
    (hnd : (keysOf d).Nodup) : (keysOf (ldel d k)).Nodup :=
  ((ldel_sublist d k).map Prod.fst).nodup hnd

theorem lget_ldel {d : League} {k : String} (hnd : (keysOf d).Nodup)
    (k' : String) :
    lget (ldel d k) k' = if k = k' then none else lget d k' := by
  induction d with
  | nil => simp [ldel, lget]
  | cons e rest ih =>
      obtain ⟨a, b⟩ := e
      simp [keysOf] at hnd
      by_cases hak : a = k
      · subst hak
        by_cases hk' : a = k'
        · subst hk'
          have hnone : lget rest a = none := by
            apply lget_eq_none_iff.mpr
            intro hmem
            rcases List.mem_map.mp hmem with ⟨⟨x, y⟩, hx, hxy⟩
            simp at hxy
            subst hxy
            exact hnd.1 y hx
          simp [ldel, hnone]
        · simp [ldel, lget, hk', hk']
      · by_cases hk' : a = k'
        · subst hk'
          have : k ≠ a := Ne.symm hak
          simp [ldel, hak, lget, this]
        · simp [ldel, hak, lget, hk', ih hnd.2]

/-! ## Frame lemmas for the pairing-loop mutations -/

theorem lget_appendOpp_self {d : League} {p1 : String} {pl : Player}
    (opp : String) (h : lget d p1 = some pl) :
    lget (appendOpp d p1 opp) p1 =
      some { pl with opponents := pl.opponents ++ [opp] } := by
  simp [appendOpp, h, lget_lset]

theorem lget_appendOpp_other {d : League} {p1 : String} (opp : String)
    {k : String} (h : p1 ≠ k) :
    lget (appendOpp d p1 opp) k = lget d k := by
  unfold appendOpp
  cases ho : lget d p1 with
  | none => rfl
  | some pl => simp [lget_lset, h]

theorem lget_appendOpp_points (d : League) (p1 opp k : String) :
    (lget (appendOpp d p1 opp) k).map Player.points =
      (lget d k).map Player.points := by
  unfold appendOpp
  cases ho : lget d p1 with
  | none => rfl
  | some pl =>
      by_cases h : p1 = k
      · subst h; simp [lget_lset, ho]
      · simp [lget_lset, h]

theorem lget_appendOpp_bye (d : League) (p1 opp k : String) :
    (lget (appendOpp d p1 opp) k).map Player.received_bye =
      (lget d k).map Player.received_bye := by
  unfold appendOpp
  cases ho : lget d p1 with
  | none => rfl
  | some pl =>
      by_cases h : p1 = k
      · subst h; simp [lget_lset, ho]
      · simp [lget_lset, h]

theorem keysOf_appendOpp (d : League) (p1 opp : String) :
    keysOf (appendOpp d p1 opp) = keysOf d := by
  unfold appendOpp
  cases ho : lget d p1 with
  | none => rfl
  | some pl => exact keysOf_lset_of_mem _ (by simp [ho])

theorem opponentsOf_appendOpp_mono {d : League} {p1 opp k x : String}
    (h : x ∈ opponentsOf d k) : x ∈ opponentsOf (appendOpp d p1 opp) k := by
  unfold opponentsOf at *
  unfold appendOpp
  cases ho : lget d p1 with
  | none => exact h
  | some pl =>
      by_cases hk : p1 = k
      · subst hk
        simp [lget_lset, ho] at h ⊢
        exact Or.inl h
      · simpa [lget_lset, hk] using h

theorem opponentsOf_appendOpp_other {d : League} {p1 : String}
    (opp : String) {k : String} (h : p1 ≠ k) :
    opponentsOf (appendOpp d p1 opp) k = opponentsOf d k := by
  unfold opponentsOf
  rw [lget_appendOpp_other opp h]

/-! ## Properties of the inner opponent scan -/

theorem findOpp_some {d : League} {p1 : String} {used : List String} :
    ∀ {ps : List String} {opp : String}, findOpp d p1 used ps = some opp →
      opp ∈ ps ∧ opp ∉ used ∧ opp ∉ opponentsOf d p1
  | [], _, h => by simp [findOpp] at h
  | p2 :: rest, opp, h => by
      by_cases h2 : p2 ∈ used
      · simp [findOpp, h2] at h
        obtain ⟨h1', h2', h3'⟩ := findOpp_some h
        exact ⟨List.mem_cons_of_mem _ h1', h2', h3'⟩
      · by_cases h3 : p2 ∈ opponentsOf d p1
        · simp [findOpp, h2, h3] at h
          obtain ⟨h1', h2', h3'⟩ := findOpp_some h
          exact ⟨List.mem_cons_of_mem _ h1', h2', h3'⟩
        · simp [findOpp, h2, h3] at h
          subst h
          exact ⟨List.mem_cons_self _ _, h2, h3⟩

theorem findOpp_congr {d1 d2 : League} {p1 : String}
    (h : opponentsOf d1 p1 = opponentsOf d2 p1) (used : List String) :
    ∀ ps, findOpp d1 p1 used ps = findOpp d2 p1 used ps
  | [] => rfl
  | p2 :: rest => by
      simp only [findOpp, h, findOpp_congr h used rest]

/-! ## The outer pairing loop -/

theorem swissLoop_nil (d : League) (used : List String)
    (pairs : List (String × String)) : swissLoop d used pairs [] = (d, used, pairs) :=
  rfl

theorem swissLoop_cons_used {d : League} {used : List String}
    {pairs : List (String × String)} {p1 : String} {rest : List String}
    (h : p1 ∈ used) :
    swissLoop d used pairs (p1 :: rest) = swissLoop d used pairs rest := by
  simp [swissLoop, h]

theorem swissLoop_cons_pair {d : League} {used : List String}
    {pairs : List (String × String)} {p1 : String} {rest : List String}
    {opp : String} (h1 : p1 ∉ used) (h2 : findOpp d p1 used rest = some opp)
    (h3 : opp ≠ "") :
    swissLoop d used pairs (p1 :: rest) =
      swissLoop (appendOpp (appendOpp d p1 opp) opp p1) (p1 :: opp :: used)
        (pairs ++ [(p1, opp)]) rest := by
  simp [swissLoop, h1, h2, h3]

theorem swissLoop_cons_empty {d : League} {used : List String}
    {pairs : List (String × String)} {p1 : String} {rest : List String}
    (h1 : p1 ∉ used) (h2 : findOpp d p1 used rest = some "") :
    swissLoop d used pairs (p1 :: rest) = swissLoop d used pairs rest := by
  simp [swissLoop, h1, h2]

theorem swissLoop_cons_none {d : League} {used : List String}
    {pairs : List (String × String)} {p1 : String} {rest : List String}
    (h1 : p1 ∉ used) (h2 : findOpp d p1 used rest = none) :
    swissLoop d used pairs (p1 :: rest) = swissLoop d used pairs rest := by
  simp [swissLoop, h1, h2]

theorem swissLoop_used_mono {x : String} :
    ∀ (d : League) (used : List String) (pairs : List (String × String))
      (ps : List String), x ∈ used → x ∈ (swissLoop d used pairs ps).2.1 := by
  intro d used pairs ps
  induction d, used, pairs, ps using swissLoop.induct with
  | case1 d used pairs => intro h; simpa [swissLoop_nil] using h
  | case2 d used pairs p1 rest h ih =>
      intro hx; rw [swissLoop_cons_used h]; exact ih hx
  | case3 d used pairs p1 rest h1 opp h2 h3 ih =>
      intro hx
      rw [swissLoop_cons_pair h1 h2 h3]
      exact ih (by simp [hx])
  | case4 d used pairs p1 rest h1 opp h2 h3 ih =>
      intro hx
      rw [swissLoop_cons_empty h1 (not_ne_iff.mp h3 ▸ h2)]
      exact ih hx
  | case5 d used pairs p1 rest h1 h2 ih =>
      intro hx; rw [swissLoop_cons_none h1 h2]; exact ih hx

theorem swissLoop_frame {x : String} :
    ∀ (d : League) (used : List String) (pairs : List (String × String))
      (ps : List String), x ∉ (swissLoop d used pairs ps).2.1 →
      lget (swissLoop d used pairs ps).1 x = lget d x := by
  intro d used pairs ps
  induction d, used, pairs, ps using swissLoop.induct with
  | case1 d used pairs => intro _; rfl
  | case2 d used pairs p1 rest h ih =>
      rw [swissLoop_cons_used h]; exact ih
  | case3 d used pairs p1 rest h1 opp h2 h3 ih =>
      intro hx
      rw [swissLoop_cons_pair h1 h2 h3] at hx ⊢
      have hu : x ∈ (p1 :: opp :: used) → False := fun hm =>
        hx (swissLoop_used_mono _ _ _ _ hm)
      have hxp1 : p1 ≠ x := fun he => hu (by simp [he])
      have hxopp : opp ≠ x := fun he => hu (by simp [he])
      rw [ih hx, lget_appendOpp_other _ hxopp, lget_appendOpp_other _ hxp1]
  | case4 d used pairs p1 rest h1 opp h2 h3 ih =>
      rw [swissLoop_cons_empty h1 (not_ne_iff.mp h3 ▸ h2)]; exact ih
  | case5 d used pairs p1 rest h1 h2 ih =>
      rw [swissLoop_cons_none h1 h2]; exact ih

theorem swissLoop_points (k : String) :
    ∀ (d : League) (used : List String) (pairs : List (String × String))
      (ps : List String),
      (lget (swissLoop d used pairs ps).1 k).map Player.points =
        (lget d k).map Player.points := by
  intro d used pairs ps
  induction d, used, pairs, ps using swissLoop.induct with
  | case1 d used pairs => rfl
  | case2 d used pairs p1 rest h ih => rw [swissLoop_cons_used h]; exact ih
  | case3 d used pairs p1 rest h1 opp h2 h3 ih =>
      rw [swissLoop_cons_pair h1 h2 h3, ih, lget_appendOpp_points,
        lget_appendOpp_points]
  | case4 d used pairs p1 rest h1 opp h2 h3 ih =>
      rw [swissLoop_cons_empty h1 (not_ne_iff.mp h3 ▸ h2)]; exact ih
  | case5 d used pairs p1 rest h1 h2 ih =>
      rw [swissLoop_cons_none h1 h2]; exact ih

theorem swissLoop_byeflag (k : String) :
    ∀ (d : League) (used : List String) (pairs : List (String × String))
      (ps : List String),
      (lget (swissLoop d used pairs ps).1 k).map Player.received_bye =
        (lget d k).map Player.received_bye := by
  intro d used pairs ps
  induction d, used, pairs, ps using swissLoop.induct with
  | case1 d used pairs => rfl
  | case2 d used pairs p1 rest h ih => rw [swissLoop_cons_used h]; exact ih
  | case3 d used pairs p1 rest h1 opp h2 h3 ih =>
      rw [swissLoop_cons_pair h1 h2 h3, ih, lget_appendOpp_bye,
        lget_appendOpp_bye]
  | case4 d used pairs p1 rest h1 opp h2 h3 ih =>
      rw [swissLoop_cons_empty h1 (not_ne_iff.mp h3 ▸ h2)]; exact ih
  | case5 d used pairs p1 rest h1 h2 ih =>
      rw [swissLoop_cons_none h1 h2]; exact ih

theorem swissLoop_keys :
    ∀ (d : League) (used : List String) (pairs : List (String × String))
      (ps : List String), keysOf (swissLoop d used pairs ps).1 = keysOf d := by
  intro d used pairs ps
  induction d, used, pairs, ps using swissLoop.induct with
  | case1 d used pairs => rfl
  | case2 d used pairs p1 rest h ih => rw [swissLoop_cons_used h]; exact ih
  | case3 d used pairs p1 rest h1 opp h2 h3 ih =>
      rw [swissLoop_cons_pair h1 h2 h3, ih, keysOf_appendOpp, keysOf_appendOpp]
  | case4 d used pairs p1 rest h1 opp h2 h3 ih =>
      rw [swissLoop_cons_empty h1 (not_ne_iff.mp h3 ▸ h2)]; exact ih
  | case5 d used pairs p1 rest h1 h2 ih =>
      rw [swissLoop_cons_none h1 h2]; exact ih

theorem swissLoop_pairs_avoid {d0 : League} :
    ∀ (d : League) (used : List String) (pairs : List (String × String))
      (ps : List String),
      (∀ p x, x ∈ opponentsOf d0 p → x ∈ opponentsOf d p) →
      ∀ pr ∈ (swissLoop d used pairs ps).2.2,
        pr ∈ pairs ∨ pr.2 ∉ opponentsOf d0 pr.1 := by
  intro d used pairs ps
  induction d, used, pairs, ps using swissLoop.induct with
  | case1 d used pairs => intro _ pr hpr; exact Or.inl hpr
  | case2 d used pairs p1 rest h ih =>
      rw [swissLoop_cons_used h]; exact ih
  | case3 d used pairs p1 rest h1 opp h2 h3 ih =>
      intro hmono pr hpr
      rw [swissLoop_cons_pair h1 h2 h3] at hpr
      have hmono2 : ∀ p x, x ∈ opponentsOf d0 p →
          x ∈ opponentsOf (appendOpp (appendOpp d p1 opp) opp p1) p :=
        fun p x hx =>
          opponentsOf_appendOpp_mono (opponentsOf_appendOpp_mono (hmono p x hx))
      rcases ih hmono2 pr hpr with hin | havoid
      · rcases List.mem_append.mp hin with hin' | hin'
        · exact Or.inl hin'
        · right
          simp at hin'
          subst hin'
          intro hmem
          exact (findOpp_some h2).2.2 (hmono p1 opp hmem)
      · exact Or.inr havoid
  | case4 d used pairs p1 rest h1 opp h2 h3 ih =>
      rw [swissLoop_cons_empty h1 (not_ne_iff.mp h3 ▸ h2)]; exact ih
  | case5 d used pairs p1 rest h1 h2 ih =>
      rw [swissLoop_cons_none h1 h2]; exact ih

/-! ## Properties of the standings sort -/

theorem stOrder_refl (a : String × Player) : stOrder a a :=
  Or.inr ⟨rfl, listLe_refl _⟩

theorem string_ext {a b : String} (h : a.data = b.data) : a = b :=
  String.ext h

theorem stOrder_antisymm_key {a b : String × Player}
    (h1 : stOrder a b) (h2 : stOrder b a) :
    a.1 = b.1 ∧ a.2.points = b.2.points := by
  rcases h1 with h1 | ⟨h1, h1'⟩
  · rcases h2 with h2 | ⟨h2, h2'⟩
    · exact absurd (h1.trans h2) (lt_irrefl _)
    · exact absurd h1 (h2 ▸ lt_irrefl _)
  · rcases h2 with h2 | ⟨h2, h2'⟩
    · exact absurd h2 (h1 ▸ lt_irrefl _)
    · exact ⟨string_ext (listLe_antisymm _ _ h1' h2'), h1⟩

theorem standings_sorted (d : League) : List.Sorted stOrder (standings d) :=
  List.sorted_insertionSort stOrder d

theorem standings_perm (d : League) : (standings d).Perm d :=
  List.perm_insertionSort stOrder d

theorem keysOf_perm {d1 d2 : League} (h : d1.Perm d2) :
    (keysOf d1).Perm (keysOf d2) := h.map Prod.fst

/-- A duplicate-free-keys list has at most one `stOrder`-sorted
arrangement: used to pin down the standings order. -/
theorem sorted_nodup_unique :
    ∀ l1 l2 : League, l1.Perm l2 → List.Sorted stOrder l1 →
      List.Sorted stOrder l2 → (keysOf l1).Nodup → l1 = l2
  | [], l2, hp, _, _, _ => hp.nil_eq
  | a :: t1, l2, hp, hs1, hs2, hnd => by
      cases l2 with
      | nil => exact absurd hp.symm.nil_eq (by simp)
      | cons b t2 =>
          have hb1 : b ∈ a :: t1 := hp.mem_iff.mpr (List.mem_cons_self b t2)
          have ha2 : a ∈ b :: t2 := hp.mem_iff.mp (List.mem_cons_self a t1)
          have hab : stOrder a b := by
            rcases List.mem_cons.mp hb1 with h | h
            · exact h ▸ stOrder_refl a
            · exact (List.sorted_cons.mp hs1).1 b h
          have hba : stOrder b a := by
            rcases List.mem_cons.mp ha2 with h | h
            · exact h ▸ stOrder_refl a
            · exact (List.sorted_cons.mp hs2).1 a h
          have hkey := stOrder_antisymm_key hab hba
          have hid : a.1 = b.1 := hkey.1
          have hba' : b = a := by
            rcases List.mem_cons.mp hb1 with h | h
            · exact h
            · exfalso
              simp [keysOf] at hnd
              exact hnd.1 b.2 (by
                have : b = (a.1, b.2) := by
                  cases b; simp at hid ⊢; exact hid.symm
                exact this ▸ h)
          subst hba'
          have ht : t1.Perm t2 := hp.cons_inv
          have := sorted_nodup_unique t1 t2 ht
            (List.sorted_cons.mp hs1).2 (List.sorted_cons.mp hs2).2
            (by simp [keysOf] at hnd ⊢; exact hnd.2)
          rw [this]

theorem standings_eq_of_perm {d1 d2 : League} (hp : d1.Perm d2)
    (hnd : (keysOf d1).Nodup) : standings d1 = standings d2 :=
  sorted_nodup_unique _ _
    ((standings_perm d1).trans (hp.trans (standings_perm d2).symm))
    (standings_sorted d1) (standings_sorted d2)
    ((keysOf_perm (standings_perm d1)).nodup_iff.mpr hnd)

theorem lget_eq_of_perm {d1 d2 : League} (hp : d1.Perm d2)
    (hnd : (keysOf d1).Nodup) (k : String) : lget d1 k = lget d2 k := by
  have hnd2 : (keysOf d2).Nodup := (keysOf_perm hp).nodup_iff.mp hnd
  cases h1 : lget d1 k with
  | none =>
      have := lget_eq_none_iff.mp h1
      exact (lget_eq_none_iff.mpr (fun hk =>
        this ((keysOf_perm hp).mem_iff.mpr hk))).symm
  | some v =>
      exact (mem_lget hnd2 (hp.mem_iff.mp (lget_mem h1))).symm

/-! ## Pairing a history-free field -/

theorem chunkPairs_length : ∀ ps : List String,
    (chunkPairs ps).length = ps.length / 2
  | [] => rfl
  | [_] => by simp [chunkPairs]
  | _ :: _ :: rest => by
      simp [chunkPairs, chunkPairs_length rest]
      omega

theorem evenTake_even : ∀ ps : List String,
    ps.length % 2 = 0 → evenTake ps = ps
  | [], _ => rfl
  | [_], h => by simp at h
  | _ :: _ :: rest, h => by
      simp only [List.length_cons] at h
      simp [evenTake]
      exact evenTake_even rest (by omega)

theorem evenTake_odd : ∀ ps : List String,
    ps.length % 2 = 1 → ∃ c, ps = evenTake ps ++ [c]
  | [], h => by simp at h
  | [p], _ => ⟨p, rfl⟩
  | p1 :: p2 :: rest, h => by
      simp only [List.length_cons] at h
      obtain ⟨c, hc⟩ := evenTake_odd rest (by omega)
      exact ⟨c, by rw [evenTake]; simpa using hc⟩

theorem evenTake_sublist : ∀ ps : List String, (evenTake ps).Sublist ps
  | [] => List.Sublist.refl _
  | [_] => by simp [evenTake]
  | p1 :: p2 :: rest => by
      rw [evenTake]
      exact ((evenTake_sublist rest).cons₂ p2).cons₂ p1

/-- On a field with no usable history, the scan pairs consecutive ranked
players: the pairs are `chunkPairs ps`, and exactly the `evenTake ps`
players get marked used. -/
theorem swissLoop_fresh :
    ∀ (ps : List String) (d : League) (used : List String)
      (acc : List (String × String)),
      ps.Nodup →
      (∀ p ∈ ps, p ∉ used) →
      (∀ p ∈ ps, p ≠ "") →
      (∀ p ∈ ps, ∀ q ∈ ps, q ∉ opponentsOf d p) →
      (swissLoop d used acc ps).2.2 = acc ++ chunkPairs ps ∧
      (∀ x, x ∈ (swissLoop d used acc ps).2.1 ↔ x ∈ evenTake ps ∨ x ∈ used)
  | [], d, used, acc, _, _, _, _ => by
      simp [swissLoop_nil, chunkPairs, evenTake]
  | [p], d, used, acc, _, hu, _, _ => by
      have hp : p ∉ used := hu p (by simp)
      have hf : findOpp d p used [] = none := rfl
      rw [swissLoop_cons_none hp hf]
      simp [swissLoop_nil, chunkPairs, evenTake]
  | p1 :: p2 :: rest, d, used, acc, hnd, hu, hne, hop => by
      have hp1 : p1 ∉ used := hu p1 (by simp)
      have hp2u : p2 ∉ used := hu p2 (by simp)
      have hp2o : p2 ∉ opponentsOf d p1 :=
        hop p1 (by simp) p2 (by simp)
      have hf : findOpp d p1 used (p2 :: rest) = some p2 := by
        simp [findOpp, hp2u, hp2o]
      have hp2ne : p2 ≠ "" := hne p2 (by simp)
      rw [swissLoop_cons_pair hp1 hf hp2ne,
        swissLoop_cons_used (show p2 ∈ p1 :: p2 :: used by simp)]
      have hndr : rest.Nodup := (List.nodup_cons.mp (List.nodup_cons.mp hnd).2).2
      have hp1r : p1 ∉ rest := fun h =>
        (List.nodup_cons.mp hnd).1 (List.mem_cons_of_mem _ h)
      have hp2r : p2 ∉ rest := (List.nodup_cons.mp (List.nodup_cons.mp hnd).2).1
      have hur : ∀ p ∈ rest, p ∉ (p1 :: p2 :: used) := by
        intro p hp
        simp only [List.mem_cons]
        push_neg
        exact ⟨fun he => hp1r (he ▸ hp), fun he => hp2r (he ▸ hp),
          hu p (by simp [hp])⟩
      have hner : ∀ p ∈ rest, p ≠ "" := fun p hp => hne p (by simp [hp])
      have hopr : ∀ p ∈ rest, ∀ q ∈ rest,
          q ∉ opponentsOf (appendOpp (appendOpp d p1 p2) p2 p1) p := by
        intro p hp q hq
        have h1 : p2 ≠ p := fun he => hp2r (he ▸ hp)
        have h2 : p1 ≠ p := fun he => hp1r (he ▸ hp)
        rw [opponentsOf_appendOpp_other _ h1, opponentsOf_appendOpp_other _ h2]
        exact hop p (by simp [hp]) q (by simp [hq])
      obtain ⟨ih1, ih2⟩ := swissLoop_fresh rest
        (appendOpp (appendOpp d p1 p2) p2 p1) (p1 :: p2 :: used)
        (acc ++ [(p1, p2)]) hndr hur hner hopr
      constructor
      · rw [ih1, chunkPairs]
        simp
      · intro x
        rw [ih2 x, evenTake]
        simp only [List.mem_cons]
        tauto

theorem swiss_pairings_of_no_leftover (d : League)
    (h : (keysOf (standings d)).filter
        (fun p => p ∉ (swissLoop d [] [] (keysOf (standings d))).2.1) = []) :
    swiss_pairings d =
      ((swissLoop d [] [] (keysOf (standings d))).1,
       (swissLoop d [] [] (keysOf (standings d))).2.2.map
         (fun q => (q.1, some q.2))) := by
  simp only [swiss_pairings]
  rw [show (standings d).map Prod.fst = keysOf (standings d) from rfl, h]

theorem swiss_pairings_of_leftover (d : League) (c : String) (cs : List String)
    (h : (keysOf (standings d)).filter
        (fun p => p ∉ (swissLoop d [] [] (keysOf (standings d))).2.1) = c :: cs) :
    swiss_pairings d =
      (setBye (add_points (swissLoop d [] [] (keysOf (standings d))).1 c 3) c,
       (swissLoop d [] [] (keysOf (standings d))).2.2.map
         (fun q => (q.1, some q.2)) ++ [(c, none)]) := by
  simp only [swiss_pairings]
  rw [show (standings d).map Prod.fst = keysOf (standings d) from rfl, h]

theorem keysOf_standings_nodup {d : League} (hnd : (keysOf d).Nodup) :
    (keysOf (standings d)).Nodup :=
  (keysOf_perm (standings_perm d)).nodup_iff.mpr hnd

theorem keysOf_standings_length (d : League) :
    (keysOf (standings d)).length = d.length := by
  simp [keysOf, (standings_perm d).length_eq]

theorem mem_keysOf_standings {d : League} {p : String}
    (hnd : (keysOf d).Nodup) (hp : p ∈ keysOf (standings d)) :
    ∃ pl, lget d p = some pl ∧ (p, pl) ∈ d := by
  rcases List.mem_map.mp hp with ⟨⟨q, pl⟩, hq, hq1⟩
  simp at hq1
  subst hq1
  exact ⟨pl, mem_lget hnd ((standings_perm d).mem_iff.mp hq),
    (standings_perm d).mem_iff.mp hq⟩

/-! ## Claim C1 -/

/-- C1, counterexample: a fresh-history standings map with an even number
of players (n = 2) on which `swiss_pairings` does not pair the 1st- and
2nd-ranked players and emits a bye: the second-ranked player's id is the
empty string, so the Python truthiness test drops the found match and the
top player ends up with the bye. -/
theorem c1_counterexample :
    (∀ e ∈ c1map, e.2.opponents = ([] : List String)) ∧
    c1map.length = 2 ∧ c1map.length % 2 = 0 ∧
    (swiss_pairings c1map).2 = [("p", none)] := by decide

/-- C1, amended: on a fresh-history standings map with `n ≥ 1` players
whose identifiers are all non-empty, `swiss_pairings` returns exactly
`⌈n/2⌉` entries, pairing the 1st- and 2nd-ranked players of the §3 sort
order, then the 3rd and 4th, and so on; for even `n` there is no bye, and
for odd `n` the single last-ranked player receives the bye as the final
entry. -/
theorem c1_amended (d : League)
    (hnd : (keysOf d).Nodup)
    (hfresh : ∀ e ∈ d, e.2.opponents = ([] : List String))
    (hne : ∀ e ∈ d, e.1 ≠ "")
    (_hpos : 1 ≤ d.length) :
    (swiss_pairings d).2.length = (d.length + 1) / 2 ∧
    (d.length % 2 = 0 → (swiss_pairings d).2 =
        (chunkPairs (keysOf (standings d))).map (fun q => (q.1, some q.2))) ∧
    (d.length % 2 = 1 → ∃ b, (keysOf (standings d)).getLast? = some b ∧
        (swiss_pairings d).2 =
          (chunkPairs (keysOf (standings d))).map (fun q => (q.1, some q.2))
            ++ [(b, none)]) := by
  have hsnd := keysOf_standings_nodup hnd
  have hlen := keysOf_standings_length d
  have hne' : ∀ p ∈ keysOf (standings d), p ≠ "" := by
    intro p hp
    obtain ⟨pl, _, hmem⟩ := mem_keysOf_standings hnd hp
    exact hne (p, pl) hmem
  have hopp : ∀ p ∈ keysOf (standings d), opponentsOf d p = [] := by
    intro p hp
    obtain ⟨pl, hg, hmem⟩ := mem_keysOf_standings hnd hp
    simp [opponentsOf, hg]
    exact hfresh (p, pl) hmem
  obtain ⟨hpairs, hused⟩ := swissLoop_fresh (keysOf (standings d)) d [] []
    hsnd (by simp) hne' (by intro p hp q hq; rw [hopp p hp]; simp)
  rw [List.nil_append] at hpairs
  set t := swissLoop d [] [] (keysOf (standings d)) with ht
  set s := keysOf (standings d) with hs
  have husediff : ∀ x, x ∈ t.2.1 ↔ x ∈ evenTake s := by
    intro x; rw [hused x]; simp
  by_cases hpar : d.length % 2 = 0
  · have hev : evenTake s = s := evenTake_even _ (by rw [hlen]; exact hpar)
    have hfil : s.filter (fun p => p ∉ t.2.1) = [] := by
      rw [List.filter_eq_nil_iff]
      intro a ha
      simp only [decide_not, Bool.not_eq_true', decide_eq_false_iff_not, not_not]
      exact (husediff a).mpr (hev.symm ▸ ha)
    rw [swiss_pairings_of_no_leftover d hfil, hpairs]
    refine ⟨?_, fun _ => rfl, fun hodd => absurd hodd (by omega)⟩
    simp [chunkPairs_length, hlen]
    omega
  · have hpar' : d.length % 2 = 1 := by omega
    obtain ⟨c, hc⟩ := evenTake_odd s (by rw [hlen]; exact hpar')
    have hcne : c ∉ evenTake s := by
      intro hmem
      have h2 : (evenTake s ++ [c]).Nodup := hc ▸ hsnd
      exact (List.disjoint_of_nodup_append h2) hmem (by simp)
    have hfil : s.filter (fun p => p ∉ t.2.1) = [c] := by
      conv_lhs => rw [hc]
      rw [List.filter_append]
      have h1 : (evenTake s).filter (fun p => decide (p ∉ t.2.1)) = [] := by
        rw [List.filter_eq_nil_iff]
        intro a ha
        simp only [decide_not, Bool.not_eq_true', decide_eq_false_iff_not, not_not]
        exact (husediff a).mpr ha
      have h2 : ([c] : List String).filter (fun p => decide (p ∉ t.2.1)) = [c] := by
        have : c ∉ t.2.1 := fun hm => hcne ((husediff c).mp hm)
        simp [List.filter, this]
      rw [h1, h2, List.nil_append]
    rw [swiss_pairings_of_leftover d c [] hfil, hpairs]
    refine ⟨?_, fun hev => absurd hev (by omega), fun _ => ⟨c, ?_, rfl⟩⟩
    · simp [chunkPairs_length, hlen]
      omega
    · rw [hc]
      exact List.getLast?_concat _

/-- C1, witness: the amended theorem applied to a concrete four-player
fresh league. -/
theorem c1_witness :
    (swiss_pairings [("a", ⟨9, [], false⟩), ("b", ⟨6, [], false⟩),
      ("c", ⟨3, [], false⟩), ("d", ⟨0, [], false⟩)]).2 =
      [("a", some "b"), ("c", some "d")] := by
  have h := c1_amended [("a", ⟨9, [], false⟩), ("b", ⟨6, [], false⟩),
      ("c", ⟨3, [], false⟩), ("d", ⟨0, [], false⟩)]
    (by decide) (by decide) (by decide) (by decide)
  rw [h.2.1 (by decide)]
  decide

/-! ## Awarding the bye -/

theorem add_points_present {d : League} {uid : String} {pl : Player}
    (pts : Int) (h : lget d uid = some pl) :
    add_points d uid pts = lset d uid { pl with points := pl.points + pts } := by
  simp [add_points, h]

theorem setBye_present {d : League} {uid : String} {pl : Player}
    (h : lget d uid = some pl) :
    setBye d uid = lset d uid { pl with received_bye := true } := by
  simp [setBye, h]

/-! ## Claim C4 -/

/-- C4, counterexample: on a one-player league (fewer than 2 players)
`swiss_pairings` does not return an empty result: it returns a single bye
entry, so the caller does not report the insufficient-players condition. -/
theorem c4_counterexample :
    (swiss_pairings [("s", ⟨0, [], false⟩)]).2 = [("s", none)] ∧
    (swiss_pairings [("s", ⟨0, [], false⟩)]).2 ≠ [] := by decide

/-- C4, amended: pairing a league with fewer than 2 players does not
crash (the function is total); on 0 players the result is empty, and on
1 player the result is that player's bye entry (not an empty result). -/
theorem c4_amended (d : League) (h : d.length < 2) :
    (swiss_pairings d).2 = d.map (fun e => (e.1, none)) := by
  match d with
  | [] => rfl
  | [(id, pl)] =>
      have hloop : swissLoop [(id, pl)] [] [] [id] = ([(id, pl)], [], []) := by
        rw [swissLoop_cons_none (by simp)
          (show findOpp [(id, pl)] id [] [] = none from rfl), swissLoop_nil]
      have hfil : (keysOf (standings [(id, pl)])).filter
          (fun p => p ∉ (swissLoop [(id, pl)] [] []
            (keysOf (standings [(id, pl)]))).2.1) = [id] := by
        show ([id] : List String).filter
          (fun p => p ∉ (swissLoop [(id, pl)] [] [] [id]).2.1) = [id]
        rw [hloop]
        simp
      rw [swiss_pairings_of_leftover _ id [] hfil]
      have ht2 : (swissLoop [(id, pl)] [] []
          (keysOf (standings [(id, pl)]))).2.2 = [] := by
        show (swissLoop [(id, pl)] [] [] [id]).2.2 = []
        rw [hloop]
      simp [ht2]
  | e1 :: e2 :: rest => simp at h; omega

/-- C4, witness: the amended theorem applied to a concrete one-player
league. -/
theorem c4_witness :
    (swiss_pairings [("z", ⟨0, [], false⟩)]).2 = [("z", none)] := by
  have h := c4_amended [("z", ⟨0, [], false⟩)] (by decide)
  simpa using h

/-! ## Claim C3 -/

theorem swiss_pairings_mem_some {d : League} {p1 p2 : String}
    (h : (p1, some p2) ∈ (swiss_pairings d).2) :
    (p1, p2) ∈ (swissLoop d [] [] (keysOf (standings d))).2.2 := by
  cases hf : (keysOf (standings d)).filter
      (fun p => p ∉ (swissLoop d [] [] (keysOf (standings d))).2.1) with
  | nil =>
      rw [swiss_pairings_of_no_leftover d hf] at h
      rcases List.mem_map.mp h with ⟨q, hq, hq1⟩
      simp at hq1
      obtain ⟨hq1, hq2⟩ := hq1
      have : q = (p1, p2) := Prod.ext hq1 hq2
      exact this ▸ hq
  | cons c cs =>
      rw [swiss_pairings_of_leftover d c cs hf] at h
      rcases List.mem_append.mp h with h' | h'
      · rcases List.mem_map.mp h' with ⟨q, hq, hq1⟩
        simp at hq1
        obtain ⟨hq1, hq2⟩ := hq1
        have : q = (p1, p2) := Prod.ext hq1 hq2
        exact this ▸ hq
      · simp at h'

/-- C3, confirmed: every pair `(p1, p2)` emitted in one `swiss_pairings`
call satisfies: `p2` was not in `p1`'s opponents set as it stood
immediately before the call began (the scan checks the evolving set,
which only grows during the call, so passing the check implies absence
from the pre-call set). -/
theorem c3_theorem (d : League) (p1 p2 : String)
    (h : (p1, some p2) ∈ (swiss_pairings d).2) :
    p2 ∉ opponentsOf d p1 := by
  have hm := swiss_pairings_mem_some h
  have havoid := swissLoop_pairs_avoid d [] [] (keysOf (standings d))
    (fun _ _ hx => hx) (p1, p2) hm
  rcases havoid with h' | h'
  · simp at h'
  · exact h'

/-- C3, witness: the theorem applied to the pair `("a", "b")` emitted on a
concrete three-player league. -/
theorem c3_witness :
    "b" ∉ opponentsOf [("a", ⟨10, [], false⟩), ("b", ⟨5, [], false⟩),
      ("c", ⟨5, [], false⟩)] "a" :=
  c3_theorem _ "a" "b" (by decide)

/-! ## Claim C2 -/

/-- C2, counterexample: a standings state with two unmatched players in
which the bye goes to the higher-ranked leftover `"c"`, not to the
lowest-ranked unmatched player `"d"` (which ranks strictly after `"c"`
and is dropped from the round entirely). -/
theorem c2_counterexample :
    (swiss_pairings c2map).2 = [("a", some "b"), ("c", none)] ∧
    stStrict ("c", ⟨0, ["d"], false⟩) ("d", ⟨0, ["c"], false⟩) ∧
    (∀ e ∈ (swiss_pairings c2map).2, e.1 ≠ "d" ∧ e.2 ≠ some "d") := by
  decide

/-- C2, amended: whenever the scan leaves players unmatched, exactly one
bye is awarded per call and it goes to the *first* leftover in the §3
sort order (the highest-ranked unmatched player): the bye entry is
appended last, it is the only bye entry of the result, and the recipient
gets +3 points and `received_bye := true` while its opponents list is
untouched. -/
theorem c2_amended (d : League) (hnd : (keysOf d).Nodup)
    (b : String) (bs : List String)
    (hlf : (keysOf (standings d)).filter
        (fun p => p ∉ (swissLoop d [] [] (keysOf (standings d))).2.1) =
        b :: bs) :
    ∃ pl, lget d b = some pl ∧
      (swiss_pairings d).2 =
        (swissLoop d [] [] (keysOf (standings d))).2.2.map
          (fun q => (q.1, some q.2)) ++ [(b, none)] ∧
      lget (swiss_pairings d).1 b =
        some ⟨pl.points + 3, pl.opponents, true⟩ ∧
      (swiss_pairings d).2.filter (fun e => e.2 = none) = [(b, none)] := by
  have hbfil : b ∈ (keysOf (standings d)).filter
      (fun p => p ∉ (swissLoop d [] [] (keysOf (standings d))).2.1) := by
    rw [hlf]; simp
  have hbs : b ∈ keysOf (standings d) := (List.mem_filter.mp hbfil).1
  have hbu : b ∉ (swissLoop d [] [] (keysOf (standings d))).2.1 := by
    have := (List.mem_filter.mp hbfil).2
    simpa using this
  obtain ⟨pl, hg, _⟩ := mem_keysOf_standings hnd hbs
  have hframe : lget (swissLoop d [] [] (keysOf (standings d))).1 b =
      some pl := (swissLoop_frame _ _ _ _ hbu).trans hg
  refine ⟨pl, hg, ?_⟩
  rw [swiss_pairings_of_leftover d b bs hlf]
  refine ⟨rfl, ?_, ?_⟩
  · rw [setBye_present (show lget (add_points
        (swissLoop d [] [] (keysOf (standings d))).1 b 3) b =
        some { pl with points := pl.points + 3 } by
      rw [add_points_present 3 hframe, lget_lset]
      simp), lget_lset]
    simp
  · rw [List.filter_append]
    have h1 : ((swissLoop d [] [] (keysOf (standings d))).2.2.map
        (fun q => (q.1, some q.2))).filter
          (fun e => decide (e.2 = none)) = [] := by
      rw [List.filter_eq_nil_iff]
      intro e he
      rcases List.mem_map.mp he with ⟨q, _, hq⟩
      subst hq
      simp
    rw [h1]
    simp

/-- C2, witness: the amended theorem applied to the spec's concrete
three-player example A(10), B(5), C(5): C is the single leftover, gets
the bye and ends with 8 points and the bye flag set. -/
theorem c2_witness :
    lget (swiss_pairings [("a", ⟨10, [], false⟩), ("b", ⟨5, [], false⟩),
      ("c", ⟨5, [], false⟩)]).1 "c" = some ⟨8, [], true⟩ := by
  obtain ⟨pl, hg, _, hpost, _⟩ := c2_amended
    [("a", ⟨10, [], false⟩), ("b", ⟨5, [], false⟩), ("c", ⟨5, [], false⟩)]
    (by decide) "c" [] (by decide)
  have hval : lget [("a", (⟨10, [], false⟩ : Player)), ("b", ⟨5, [], false⟩),
      ("c", ⟨5, [], false⟩)] "c" = some ⟨5, [], false⟩ := by decide
  rw [hval] at hg
  have hpl : pl = ⟨5, [], false⟩ := (Option.some.inj hg).symm
  subst hpl
  rw [hpost]
  decide

/-! ## Claim C6 -/

/-- C6, confirmed: on a well-formed league (unique ids), `standings`
returns a permutation of the records sorted strictly by descending
points with ascending identifier as tiebreak, and sorting is idempotent
(repeating the call on the unchanged state yields the identical list).
In the embedding `standings` is a pure function of the state — it
returns a fresh sorted list and performs no mutation, mirroring
Python's `sorted(self.data.items(), ...)`. -/
theorem c6_theorem (d : League) (hnd : (keysOf d).Nodup) :
    List.Pairwise stStrict (standings d) ∧ (standings d).Perm d ∧
    standings (standings d) = standings d := by
  have hs : List.Pairwise stOrder (standings d) := standings_sorted d
  have hknd : (keysOf (standings d)).Nodup := keysOf_standings_nodup hnd
  have hpair_ne : List.Pairwise
      (fun a b : String × Player => a.1 ≠ b.1) (standings d) := by
    rw [keysOf, List.Nodup, List.pairwise_map] at hknd
    exact hknd
  refine ⟨(hs.and hpair_ne).imp ?_, standings_perm d, ?_⟩
  · rintro a b ⟨hab, hne⟩
    rcases hab with h | ⟨h1, h2⟩
    · exact Or.inl h
    · exact Or.inr ⟨h1, h2, hne⟩
  · exact sorted_nodup_unique _ _ (standings_perm (standings d))
      (standings_sorted (standings d)) (standings_sorted d)
      (keysOf_standings_nodup hknd)

/-- C6, witness: the theorem applied to a concrete three-player league. -/
theorem c6_witness :
    List.Pairwise stStrict (standings [("b", ⟨5, [], false⟩),
      ("a", ⟨5, [], false⟩), ("c", ⟨9, ["a"], true⟩)]) ∧
    standings (standings [("b", ⟨5, [], false⟩),
      ("a", ⟨5, [], false⟩), ("c", ⟨9, ["a"], true⟩)]) =
      standings [("b", ⟨5, [], false⟩),
        ("a", ⟨5, [], false⟩), ("c", ⟨9, ["a"], true⟩)] := by
  have h := c6_theorem [("b", ⟨5, [], false⟩), ("a", ⟨5, [], false⟩),
    ("c", ⟨9, ["a"], true⟩)] (by decide)
  exact ⟨h.1, h.2.2⟩

/-! ## Claim C8 -/

/-- C8, confirmed: `remove_player id` returns `true` and deletes exactly
that record when `id` is present, returns `false` and leaves the state
untouched when absent, and in either case every other player's record —
opponents lists included — is unchanged. -/
theorem c8_theorem (d : League) (hnd : (keysOf d).Nodup) (id : String) :
    ((lget d id).isSome →
      (remove_player d id).2 = true ∧
      lget (remove_player d id).1 id = none ∧
      (∀ k, k ≠ id → lget (remove_player d id).1 k = lget d k)) ∧
    (lget d id = none →
      (remove_player d id).2 = false ∧ (remove_player d id).1 = d) := by
  constructor
  · intro hsome
    have hr : remove_player d id = (ldel d id, true) := by
      simp [remove_player, hsome]
    rw [hr]
    refine ⟨rfl, ?_, ?_⟩
    · rw [lget_ldel hnd]
      simp
    · intro k hk
      rw [lget_ldel hnd]
      simp [Ne.symm hk]
  · intro hnone
    simp [remove_player, hnone]

/-- C8, witness: both branches of the theorem at a concrete two-player
league. -/
theorem c8_witness :
    lget (remove_player [("a", ⟨1, ["b"], false⟩),
      ("b", ⟨0, ["a"], false⟩)] "a").1 "b" = some ⟨0, ["a"], false⟩ ∧
    (remove_player [("a", ⟨1, ["b"], false⟩),
      ("b", ⟨0, ["a"], false⟩)] "x").1 =
      [("a", ⟨1, ["b"], false⟩), ("b", ⟨0, ["a"], false⟩)] := by
  have h := c8_theorem [("a", ⟨1, ["b"], false⟩), ("b", ⟨0, ["a"], false⟩)]
    (by decide) "a"
  have h2 := c8_theorem [("a", ⟨1, ["b"], false⟩), ("b", ⟨0, ["a"], false⟩)]
    (by decide) "x"
  constructor
  · rw [(h.1 (by decide)).2.2 "b" (by decide)]
    decide
  · exact (h2.2 (by decide)).2

/-! ## Extensionality: the engine depends only on the map contents -/

theorem opponentsOf_ext {d1 d2 : League} (h : ∀ k, lget d1 k = lget d2 k)
    (p : String) : opponentsOf d1 p = opponentsOf d2 p := by
  unfold opponentsOf
  rw [h p]

theorem lget_appendOpp_ext {d1 d2 : League}
    (h : ∀ k, lget d1 k = lget d2 k) (p o k : String) :
    lget (appendOpp d1 p o) k = lget (appendOpp d2 p o) k := by
  unfold appendOpp
  rw [h p]
  cases lget d2 p with
  | none => exact h k
  | some pl =>
      by_cases hp : p = k <;> simp [lget_lset, hp, h k]

theorem add_points_absent {d : League} {uid : String} (pts : Int)
    (h : lget d uid = none) :
    add_points d uid pts =
      lset (lset d uid ⟨0, [], false⟩) uid ⟨0 + pts, [], false⟩ := by
  simp [add_points, add_player, h, lget_lset]

theorem lget_add_points_ext {d1 d2 : League}
    (h : ∀ k, lget d1 k = lget d2 k) (uid : String) (pts : Int) (k : String) :
    lget (add_points d1 uid pts) k = lget (add_points d2 uid pts) k := by
  cases ho : lget d2 uid with
  | some pl =>
      rw [add_points_present pts ((h uid).trans ho), add_points_present pts ho]
      by_cases hp : uid = k <;> simp [lget_lset, hp, h k]
  | none =>
      rw [add_points_absent pts ((h uid).trans ho), add_points_absent pts ho]
      by_cases hp : uid = k <;> simp [lget_lset, hp, h k]

theorem lget_setBye_ext {d1 d2 : League}
    (h : ∀ k, lget d1 k = lget d2 k) (uid k : String) :
    lget (setBye d1 uid) k = lget (setBye d2 uid) k := by
  unfold setBye
  rw [h uid]
  cases lget d2 uid with
  | none => exact h k
  | some pl =>
      by_cases hp : uid = k <;> simp [lget_lset, hp, h k]

theorem swissLoop_ext :
    ∀ (ps : List String) (d1 d2 : League), (∀ k, lget d1 k = lget d2 k) →
      ∀ (used : List String) (acc : List (String × String)),
        (swissLoop d1 used acc ps).2 = (swissLoop d2 used acc ps).2 ∧
        ∀ k, lget (swissLoop d1 used acc ps).1 k =
          lget (swissLoop d2 used acc ps).1 k
  | [], d1, d2, h, used, acc => ⟨rfl, h⟩
  | p1 :: rest, d1, d2, h, used, acc => by
      by_cases hu : p1 ∈ used
      · rw [swissLoop_cons_used hu, swissLoop_cons_used hu]
        exact swissLoop_ext rest d1 d2 h used acc
      · have hf : findOpp d1 p1 used rest = findOpp d2 p1 used rest :=
          findOpp_congr (opponentsOf_ext h p1) used rest
        cases ho : findOpp d2 p1 used rest with
        | none =>
            rw [swissLoop_cons_none hu (hf.trans ho),
              swissLoop_cons_none hu ho]
            exact swissLoop_ext rest d1 d2 h used acc
        | some opp =>
            by_cases hne : opp = ""
            · subst hne
              rw [swissLoop_cons_empty hu (hf.trans ho),
                swissLoop_cons_empty hu ho]
              exact swissLoop_ext rest d1 d2 h used acc
            · rw [swissLoop_cons_pair hu (hf.trans ho) hne,
                swissLoop_cons_pair hu ho hne]
              exact swissLoop_ext rest _ _
                (fun k => lget_appendOpp_ext
                  (fun k' => lget_appendOpp_ext h p1 opp k') opp p1 k) _ _

theorem swiss_pairings_ext {d1 d2 : League}
    (hst : standings d1 = standings d2)
    (hext : ∀ k, lget d1 k = lget d2 k) :
    (swiss_pairings d1).2 = (swiss_pairings d2).2 ∧
    ∀ k, lget (swiss_pairings d1).1 k = lget (swiss_pairings d2).1 k := by
  obtain ⟨hpair, hstate⟩ :=
    swissLoop_ext (keysOf (standings d1)) d1 d2 hext [] []
  have hks : keysOf (standings d2) = keysOf (standings d1) := by rw [hst]
  have hfe : (keysOf (standings d2)).filter
      (fun p => p ∉ (swissLoop d2 [] [] (keysOf (standings d2))).2.1) =
      (keysOf (standings d1)).filter
      (fun p => p ∉ (swissLoop d1 [] [] (keysOf (standings d1))).2.1) := by
    rw [hks, ← hpair]
  cases hf : (keysOf (standings d1)).filter
      (fun p => p ∉ (swissLoop d1 [] [] (keysOf (standings d1))).2.1) with
  | nil =>
      rw [swiss_pairings_of_no_leftover d1 hf,
        swiss_pairings_of_no_leftover d2 (hfe.trans hf)]
      constructor
      · show (swissLoop d1 [] [] (keysOf (standings d1))).2.2.map _ =
          (swissLoop d2 [] [] (keysOf (standings d2))).2.2.map _
        rw [hks, ← hpair]
      · intro k
        show lget (swissLoop d1 [] [] (keysOf (standings d1))).1 k =
          lget (swissLoop d2 [] [] (keysOf (standings d2))).1 k
        rw [hks]
        exact hstate k
  | cons c cs =>
      rw [swiss_pairings_of_leftover d1 c cs hf,
        swiss_pairings_of_leftover d2 c cs (hfe.trans hf)]
      have hs2 : ∀ k, lget (swissLoop d1 [] [] (keysOf (standings d1))).1 k =
          lget (swissLoop d2 [] [] (keysOf (standings d2))).1 k := by
        intro k
        rw [hks]
        exact hstate k
      constructor
      · show (swissLoop d1 [] [] (keysOf (standings d1))).2.2.map _ ++ _ =
          (swissLoop d2 [] [] (keysOf (standings d2))).2.2.map _ ++ _
        rw [hks, ← hpair]
      · intro k
        exact lget_setBye_ext (fun k' => lget_add_points_ext hs2 c 3 k') c k

/-! ## Claim C7 -/

/-- C7, confirmed: `swiss_pairings` is deterministic and depends only on
the contents of the standings map: two states holding the same players
with the same points, opponent histories and bye flags (i.e. permuted
association lists) produce identical pairing lists and extensionally
identical resulting states.  No randomness enters the computation — the
embedding is a pure function translated from the source, which consults
no random source in the pairing path. -/
theorem c7_theorem (d1 d2 : League) (hp : d1.Perm d2)
    (hnd : (keysOf d1).Nodup) :
    (swiss_pairings d1).2 = (swiss_pairings d2).2 ∧
    ∀ k, lget (swiss_pairings d1).1 k = lget (swiss_pairings d2).1 k :=
  swiss_pairings_ext (standings_eq_of_perm hp hnd) (lget_eq_of_perm hp hnd)

/-- C7, witness: the theorem applied to two permuted two-player
leagues. -/
theorem c7_witness :
    (swiss_pairings [("a", ⟨3, [], false⟩), ("b", ⟨0, [], false⟩)]).2 =
      (swiss_pairings [("b", ⟨0, [], false⟩), ("a", ⟨3, [], false⟩)]).2 ∧
    lget (swiss_pairings [("a", ⟨3, [], false⟩),
        ("b", ⟨0, [], false⟩)]).1 "b" =
      lget (swiss_pairings [("b", ⟨0, [], false⟩),
        ("a", ⟨3, [], false⟩)]).1 "b" := by
  have h := c7_theorem [("a", ⟨3, [], false⟩), ("b", ⟨0, [], false⟩)]
    [("b", ⟨0, [], false⟩), ("a", ⟨3, [], false⟩)]
    (List.Perm.swap _ _ _) (by decide)
  exact ⟨h.1, h.2 "b"⟩

/-! ## The bye flag never feeds back into the engine -/

theorem stripBye_opponents (pl : Player) :
    (stripBye pl).opponents = pl.opponents := rfl

theorem stripBye_points (pl : Player) : (stripBye pl).points = pl.points :=
  rfl

theorem lget_eraseBye (d : League) (k : String) :
    lget (eraseBye d) k = (lget d k).map stripBye := by
  induction d with
  | nil => rfl
  | cons e rest ih =>
      obtain ⟨a, b⟩ := e
      by_cases hak : a = k
      · simp [eraseBye, lget, hak]
      · simp [eraseBye, lget, hak]
        simpa [eraseBye] using ih

theorem byeAgnostic_eraseBye (d : League) : ByeAgnostic (eraseBye d) d := by
  intro k
  rw [lget_eraseBye]
  cases lget d k with
  | none => rfl
  | some pl => rfl

theorem byeAgnostic_opponentsOf {d1 d2 : League} (h : ByeAgnostic d1 d2)
    (p : String) : opponentsOf d1 p = opponentsOf d2 p := by
  have hp := h p
  unfold opponentsOf
  cases h1 : lget d1 p with
  | none =>
      cases h2 : lget d2 p with
      | none => rfl
      | some pl2 => rw [h1, h2] at hp; simp at hp
  | some pl1 =>
      cases h2 : lget d2 p with
      | none => rw [h1, h2] at hp; simp at hp
      | some pl2 =>
          rw [h1, h2] at hp
          simp at hp
          have := congrArg Player.opponents hp
          rw [stripBye_opponents, stripBye_opponents] at this
          simpa using this

theorem byeAgnostic_appendOpp {d1 d2 : League} (h : ByeAgnostic d1 d2)
    (p o : String) : ByeAgnostic (appendOpp d1 p o) (appendOpp d2 p o) := by
  intro k
  have hp := h p
  unfold appendOpp
  cases h1 : lget d1 p with
  | none =>
      cases h2 : lget d2 p with
      | none => exact h k
      | some pl2 => rw [h1, h2] at hp; simp at hp
  | some pl1 =>
      cases h2 : lget d2 p with
      | none => rw [h1, h2] at hp; simp at hp
      | some pl2 =>
          rw [h1, h2] at hp
          simp at hp
          have ho := congrArg Player.opponents hp
          rw [stripBye_opponents, stripBye_opponents] at ho
          have hpts := congrArg Player.points hp
          rw [stripBye_points, stripBye_points] at hpts
          by_cases hk : p = k
          · subst hk
            simp [lget_lset, stripBye, ho, hpts]
          · simp [lget_lset, hk]
            exact h k

theorem byeAgnostic_add_points {d1 d2 : League} (h : ByeAgnostic d1 d2)
    (uid : String) (pts : Int) :
    ByeAgnostic (add_points d1 uid pts) (add_points d2 uid pts) := by
  intro k
  have hp := h uid
  cases h1 : lget d1 uid with
  | none =>
      cases h2 : lget d2 uid with
      | none =>
          rw [add_points_absent pts h1, add_points_absent pts h2]
          by_cases hk : uid = k <;> simp [lget_lset, hk]
          exact h k
      | some pl2 => rw [h1, h2] at hp; simp at hp
  | some pl1 =>
      cases h2 : lget d2 uid with
      | none => rw [h1, h2] at hp; simp at hp
      | some pl2 =>
          rw [h1, h2] at hp
          simp at hp
          have hpts := congrArg Player.points hp
          rw [stripBye_points, stripBye_points] at hpts
          have ho := congrArg Player.opponents hp
          rw [stripBye_opponents, stripBye_opponents] at ho
          rw [add_points_present pts h1, add_points_present pts h2]
          by_cases hk : uid = k
          · subst hk
            simp [lget_lset, stripBye, hpts, ho]
          · simp [lget_lset, hk]
            exact h k

theorem byeAgnostic_setBye {d1 d2 : League} (h : ByeAgnostic d1 d2)
    (uid : String) : ByeAgnostic (setBye d1 uid) (setBye d2 uid) := by
  intro k
  have hp := h uid
  unfold setBye
  cases h1 : lget d1 uid with
  | none =>
      cases h2 : lget d2 uid with
      | none => exact h k
      | some pl2 => rw [h1, h2] at hp; simp at hp
  | some pl1 =>
      cases h2 : lget d2 uid with
      | none => rw [h1, h2] at hp; simp at hp
      | some pl2 =>
          rw [h1, h2] at hp
          simp at hp
          have hpts := congrArg Player.points hp
          rw [stripBye_points, stripBye_points] at hpts
          have ho := congrArg Player.opponents hp
          rw [stripBye_opponents, stripBye_opponents] at ho
          by_cases hk : uid = k
          · subst hk
            simp [lget_lset, stripBye, hpts, ho]
          · simp [lget_lset, hk]
            exact h k

theorem swissLoop_byeAgnostic :
    ∀ (ps : List String) (d1 d2 : League), ByeAgnostic d1 d2 →
      ∀ (used : List String) (acc : List (String × String)),
        (swissLoop d1 used acc ps).2 = (swissLoop d2 used acc ps).2 ∧
        ByeAgnostic (swissLoop d1 used acc ps).1 (swissLoop d2 used acc ps).1
  | [], d1, d2, h, used, acc => ⟨rfl, h⟩
  | p1 :: rest, d1, d2, h, used, acc => by
      by_cases hu : p1 ∈ used
      · rw [swissLoop_cons_used hu, swissLoop_cons_used hu]
        exact swissLoop_byeAgnostic rest d1 d2 h used acc
      · have hf : findOpp d1 p1 used rest = findOpp d2 p1 used rest :=
          findOpp_congr (byeAgnostic_opponentsOf h p1) used rest
        cases ho : findOpp d2 p1 used rest with
        | none =>
            rw [swissLoop_cons_none hu (hf.trans ho),
              swissLoop_cons_none hu ho]
            exact swissLoop_byeAgnostic rest d1 d2 h used acc
        | some opp =>
            by_cases hne : opp = ""
            · subst hne
              rw [swissLoop_cons_empty hu (hf.trans ho),
                swissLoop_cons_empty hu ho]
              exact swissLoop_byeAgnostic rest d1 d2 h used acc
            · rw [swissLoop_cons_pair hu (hf.trans ho) hne,
                swissLoop_cons_pair hu ho hne]
              exact swissLoop_byeAgnostic rest _ _
                (byeAgnostic_appendOpp (byeAgnostic_appendOpp h p1 opp) opp p1)
                _ _

theorem standings_eraseBye (d : League) :
    standings (eraseBye d) = eraseBye (standings d) := by
  unfold standings eraseBye
  exact (List.map_insertionSort stOrder stOrder
    (fun e => (e.1, stripBye e.2)) d (fun a _ b _ => Iff.rfl)).symm

theorem keysOf_eraseBye (d : League) : keysOf (eraseBye d) = keysOf d := by
  simp [keysOf, eraseBye]

theorem swiss_pairings_byeAgnostic {d1 d2 : League}
    (hst : keysOf (standings d1) = keysOf (standings d2))
    (h : ByeAgnostic d1 d2) :
    (swiss_pairings d1).2 = (swiss_pairings d2).2 ∧
    ByeAgnostic (swiss_pairings d1).1 (swiss_pairings d2).1 := by
  obtain ⟨hpair, hstate⟩ :=
    swissLoop_byeAgnostic (keysOf (standings d1)) d1 d2 h [] []
  have hfe : (keysOf (standings d2)).filter
      (fun p => p ∉ (swissLoop d2 [] [] (keysOf (standings d2))).2.1) =
      (keysOf (standings d1)).filter
      (fun p => p ∉ (swissLoop d1 [] [] (keysOf (standings d1))).2.1) := by
    rw [← hst, ← hpair]
  cases hf : (keysOf (standings d1)).filter
      (fun p => p ∉ (swissLoop d1 [] [] (keysOf (standings d1))).2.1) with
  | nil =>
      rw [swiss_pairings_of_no_leftover d1 hf,
        swiss_pairings_of_no_leftover d2 (hfe.trans hf)]
      constructor
      · show (swissLoop d1 [] [] (keysOf (standings d1))).2.2.map _ =
          (swissLoop d2 [] [] (keysOf (standings d2))).2.2.map _
        rw [← hst, ← hpair]
      · intro k
        show (lget (swissLoop d1 [] [] (keysOf (standings d1))).1 k).map _ =
          (lget (swissLoop d2 [] [] (keysOf (standings d2))).1 k).map _
        rw [← hst]
        exact hstate k
  | cons c cs =>
      rw [swiss_pairings_of_leftover d1 c cs hf,
        swiss_pairings_of_leftover d2 c cs (hfe.trans hf)]
      have hs2 : ByeAgnostic (swissLoop d1 [] [] (keysOf (standings d1))).1
          (swissLoop d2 [] [] (keysOf (standings d2))).1 := by
        intro k
        show (lget (swissLoop d1 [] [] (keysOf (standings d1))).1 k).map _ =
          (lget (swissLoop d2 [] [] (keysOf (standings d2))).1 k).map _
        rw [← hst]
        exact hstate k
      constructor
      · show (swissLoop d1 [] [] (keysOf (standings d1))).2.2.map _ ++ _ =
          (swissLoop d2 [] [] (keysOf (standings d2))).2.2.map _ ++ _
        rw [← hst, ← hpair]
      · exact byeAgnostic_setBye
          (byeAgnostic_add_points hs2 c 3) c

/-! ## Claim C9 -/

/-- C9, confirmed: the found opponent is accepted through Python's
truthiness test `if opponent:`, so when the first eligible candidate for
`p1` has the empty string as id the iteration discards the match
entirely — the state and output are exactly as if `p1` had found no
opponent (no pair is emitted for `p1`, no opponents mutation happens,
and no later candidate is considered).  On the concrete league `c9map`
the pairing `("x", "")` is eligible, yet `"x"` falls through to the bye
and `""` is dropped, with `"x"`'s opponents list untouched. -/
theorem c9_theorem :
    (∀ (d : League) (used : List String) (acc : List (String × String))
        (p1 : String) (rest : List String), p1 ∉ used →
        findOpp d p1 used rest = some "" →
        swissLoop d used acc (p1 :: rest) = swissLoop d used acc rest) ∧
    findOpp c9map "x" [] [""] = some "" ∧
    "" ∉ opponentsOf c9map "x" ∧
    (swiss_pairings c9map).2 = [("x", none)] ∧
    opponentsOf (swiss_pairings c9map).1 "x" = [] :=
  ⟨fun _ _ _ _ _ h1 h2 => swissLoop_cons_empty h1 h2, by decide⟩

/-- C9, witness: the discard equation applied at the concrete league
`c9map` with the found empty-string opponent. -/
theorem c9_witness :
    swissLoop c9map [] [] ["x", ""] = swissLoop c9map [] [] [""] :=
  c9_theorem.1 c9map [] [] "x" [""] (by decide) (by decide)

/-! ## Claim C10 -/

theorem swiss_singleton (id : String) (pl : Player) :
    swiss_pairings [(id, pl)] =
      ([(id, ⟨pl.points + 3, pl.opponents, true⟩)], [(id, none)]) := by
  have hloop : swissLoop [(id, pl)] [] [] [id] = ([(id, pl)], [], []) := by
    rw [swissLoop_cons_none (by simp)
      (show findOpp [(id, pl)] id [] [] = none from rfl), swissLoop_nil]
  have hfil : (keysOf (standings [(id, pl)])).filter
      (fun p => p ∉ (swissLoop [(id, pl)] [] []
        (keysOf (standings [(id, pl)]))).2.1) = [id] := by
    show ([id] : List String).filter
      (fun p => p ∉ (swissLoop [(id, pl)] [] [] [id]).2.1) = [id]
    rw [hloop]
    simp
  rw [swiss_pairings_of_leftover _ id [] hfil]
  have ht1 : (swissLoop [(id, pl)] [] []
      (keysOf (standings [(id, pl)]))).1 = [(id, pl)] := by
    show (swissLoop [(id, pl)] [] [] [id]).1 = [(id, pl)]
    rw [hloop]
  have ht2 : (swissLoop [(id, pl)] [] []
      (keysOf (standings [(id, pl)]))).2.2 = ([] : List (String × String)) := by
    show (swissLoop [(id, pl)] [] [] [id]).2.2 = []
    rw [hloop]
  rw [ht1, ht2]
  have hg : lget [(id, pl)] id = some pl := by simp [lget]
  rw [add_points_present 3 hg]
  have hset1 : lset [(id, pl)] id { pl with points := pl.points + 3 } =
      [(id, { pl with points := pl.points + 3 })] := by simp [lset]
  rw [hset1]
  have hg2 : lget [(id, { pl with points := pl.points + 3 })] id =
      some { pl with points := pl.points + 3 } := by simp [lget]
  rw [setBye_present hg2]
  simp [lset]

theorem iterSwiss_singleton (id : String) (pl : Player) :
    ∀ n, iterSwiss [(id, pl)] (n + 1) =
      [(id, ⟨pl.points + 3 * (n + 1), pl.opponents, true⟩)]
  | 0 => by
      show (swiss_pairings (iterSwiss [(id, pl)] 0)).1 = _
      show (swiss_pairings [(id, pl)]).1 = _
      rw [swiss_singleton]
      norm_num
  | n + 1 => by
      show (swiss_pairings (iterSwiss [(id, pl)] (n + 1))).1 = _
      rw [iterSwiss_singleton id pl n, swiss_singleton]
      refine congrArg (fun q : Player => [(id, q)]) ?_
      refine Player.mk.injEq .. ▸ ?_
      norm_num
      ring

/-- C10, confirmed: bye selection never consults `received_bye`.
Resetting every bye flag (`eraseBye`) changes nothing in the pairing
output, so the flag influences no pairing decision; and on a one-player
league the same player is awarded the bye on every one of `n`
consecutive calls, each time gaining 3 points, regardless of its
`received_bye` flag (which the iteration keeps at `true` after the first
call, confirming that once set it only records history). -/
theorem c10_theorem :
    (∀ d : League,
      (swiss_pairings (eraseBye d)).2 = (swiss_pairings d).2) ∧
    (∀ (id : String) (pl : Player) (n : Nat),
      (swiss_pairings (iterSwiss [(id, pl)] n)).2 = [(id, none)] ∧
      lget (iterSwiss [(id, pl)] (n + 1)) id =
        some ⟨pl.points + 3 * (n + 1), pl.opponents, true⟩) := by
  constructor
  · intro d
    refine (swiss_pairings_byeAgnostic ?_ (byeAgnostic_eraseBye d)).1
    rw [standings_eraseBye]
    exact keysOf_eraseBye (standings d)
  · intro id pl n
    constructor
    · cases n with
      | zero =>
          show (swiss_pairings [(id, pl)]).2 = _
          rw [swiss_singleton]
      | succ m =>
          rw [show iterSwiss [(id, pl)] (m + 1) =
            [(id, ⟨pl.points + 3 * (m + 1), pl.opponents, true⟩)] from
            iterSwiss_singleton id pl m, swiss_singleton]
    · rw [iterSwiss_singleton id pl n]
      simp [lget]

/-! ## Claim C5: invariants of reachable states -/

theorem lget_pairStep {d : League} {p1 opp : String} {pl1 pl2 : Player}
    (hne : p1 ≠ opp) (h1 : lget d p1 = some pl1)
    (h2 : lget d opp = some pl2) (k : String) :
    lget (appendOpp (appendOpp d p1 opp) opp p1) k =
      if opp = k then some { pl2 with opponents := pl2.opponents ++ [p1] }
      else if p1 = k then
        some { pl1 with opponents := pl1.opponents ++ [opp] }
      else lget d k := by
  have e1 : lget (appendOpp d p1 opp) opp = some pl2 := by
    rw [lget_appendOpp_other opp hne]
    exact h2
  by_cases hk2 : opp = k
  · subst hk2
    rw [lget_appendOpp_self p1 e1]
    simp
  · rw [lget_appendOpp_other p1 hk2]
    by_cases hk1 : p1 = k
    · subst hk1
      rw [lget_appendOpp_self opp h1]
      simp [hk2]
    · rw [lget_appendOpp_other opp hk1]
      simp [hk1, hk2]

theorem lset_fresh_inv {d : League} {uid : String}
    (h : LeagueInv d) (_habs : lget d uid = none) :
    LeagueInv (lset d uid ⟨0, [], false⟩) := by
  refine ⟨keysOf_lset_nodup _ h.1, ?_⟩
  intro k pl hg
  rw [lget_lset] at hg
  by_cases hk : uid = k
  · simp [hk] at hg
    simp [← hg]
  · simp [hk] at hg
    exact h.2 k pl hg

theorem lset_fresh_invNR {d : League} {uid : String}
    (h : LeagueInvNR d) (habs : lget d uid = none) :
    LeagueInvNR (lset d uid ⟨0, [], false⟩) := by
  have hknew : keysOf (lset d uid ⟨0, [], false⟩) = keysOf d ++ [uid] := by
    rw [lset_of_absent _ habs]
    simp [keysOf]
  refine ⟨lset_fresh_inv h.1 habs, ?_, ?_, ?_⟩
  · intro k pl hg
    rw [lget_lset] at hg
    by_cases hk : uid = k
    · simp [hk] at hg
      simp [← hg]
    · simp [hk] at hg
      exact h.2.1 k pl hg
  · intro k pl hg q hq
    rw [lget_lset] at hg
    rw [hknew]
    by_cases hk : uid = k
    · simp [hk] at hg
      rw [← hg] at hq
      simp at hq
    · simp [hk] at hg
      exact List.mem_append_left _ (h.2.2.1 k pl hg q hq)
  · intro k1 pl1 k2 pl2 hg1 hg2 hmem
    rw [lget_lset] at hg1 hg2
    by_cases hk1 : uid = k1
    · simp [hk1] at hg1
      rw [← hg1] at hmem
      simp at hmem
    · simp [hk1] at hg1
      by_cases hk2 : uid = k2
      · exfalso
        subst hk2
        have : uid ∈ keysOf d := h.2.2.1 k1 pl1 hg1 uid hmem
        exact (lget_eq_none_iff.mp habs) this
      · simp [hk2] at hg2
        exact h.2.2.2 k1 pl1 k2 pl2 hg1 hg2 hmem

theorem lset_same_opps_inv {d : League} {uid : String} {pl pl' : Player}
    (hg : lget d uid = some pl) (hopps : pl'.opponents = pl.opponents)
    (h : LeagueInv d) : LeagueInv (lset d uid pl') := by
  refine ⟨keysOf_lset_nodup _ h.1, ?_⟩
  intro k q hq
  rw [lget_lset] at hq
  by_cases hk : uid = k
  · simp [hk] at hq
    subst hk
    rw [← hq, hopps]
    exact h.2 uid pl hg
  · simp [hk] at hq
    exact h.2 k q hq

theorem lset_same_opps_invNR {d : League} {uid : String} {pl pl' : Player}
    (hg : lget d uid = some pl) (hopps : pl'.opponents = pl.opponents)
    (h : LeagueInvNR d) : LeagueInvNR (lset d uid pl') := by
  have hkeq : keysOf (lset d uid pl') = keysOf d :=
    keysOf_lset_of_mem _ (by simp [hg])
  refine ⟨lset_same_opps_inv hg hopps h.1, ?_, ?_, ?_⟩
  · intro k q hq
    rw [lget_lset] at hq
    by_cases hk : uid = k
    · simp [hk] at hq
      rw [← hq, hopps]
      exact h.2.1 k pl (hk ▸ hg)
    · simp [hk] at hq
      exact h.2.1 k q hq
  · intro k q hq x hx
    rw [lget_lset] at hq
    rw [hkeq]
    by_cases hk : uid = k
    · simp [hk] at hq
      rw [← hq, hopps] at hx
      exact h.2.2.1 uid pl hg x hx
    · simp [hk] at hq
      exact h.2.2.1 k q hq x hx
  · intro k1 q1 k2 q2 hg1 hg2 hmem
    rw [lget_lset] at hg1 hg2
    by_cases hk1 : uid = k1 <;> by_cases hk2 : uid = k2
    · simp [hk1] at hg1
      simp [hk2] at hg2
      rw [← hg2, hopps]
      rw [← hg1, hopps] at hmem
      exact h.2.2.2 k1 pl k2 pl (hk1 ▸ hg) (hk2 ▸ hg) hmem
    · simp [hk1] at hg1
      simp [hk2] at hg2
      rw [← hg1, hopps] at hmem
      exact h.2.2.2 k1 pl k2 q2 (hk1 ▸ hg) hg2 hmem
    · simp [hk1] at hg1
      simp [hk2] at hg2
      rw [← hg2, hopps]
      exact h.2.2.2 k1 q1 k2 pl hg1 (hk2 ▸ hg) hmem
    · simp [hk1] at hg1
      simp [hk2] at hg2
      exact h.2.2.2 k1 q1 k2 q2 hg1 hg2 hmem

theorem appendOpp_inv {d : League} {p1 opp : String}
    (h : LeagueInv d) (hne : p1 ≠ opp) : LeagueInv (appendOpp d p1 opp) := by
  unfold appendOpp
  cases hg : lget d p1 with
  | none => exact h
  | some pl =>
      refine ⟨keysOf_lset_nodup _ h.1, ?_⟩
      intro k q hq
      rw [lget_lset] at hq
      by_cases hk : p1 = k
      · simp [hk] at hq
        subst hk
        rw [← hq]
        simp
        exact ⟨h.2 p1 pl hg, hne⟩
      · simp [hk] at hq
        exact h.2 k q hq

theorem pairStep_invNR {d : League} {p1 opp : String}
    (h : LeagueInvNR d) (hne : p1 ≠ opp)
    (hp1 : p1 ∈ keysOf d) (hopp : opp ∈ keysOf d)
    (havoid : opp ∉ opponentsOf d p1) :
    LeagueInvNR (appendOpp (appendOpp d p1 opp) opp p1) := by
  obtain ⟨pl1, h1⟩ := Option.isSome_iff_exists.mp (lget_isSome_iff.mpr hp1)
  obtain ⟨pl2, h2⟩ := Option.isSome_iff_exists.mp (lget_isSome_iff.mpr hopp)
  have havoid1 : opp ∉ pl1.opponents := by
    rw [opponentsOf, h1] at havoid
    simpa using havoid
  have havoid2 : p1 ∉ pl2.opponents := fun hmem =>
    havoid1 (h.2.2.2 opp pl2 p1 pl1 h2 h1 hmem)
  have hkeys : keysOf (appendOpp (appendOpp d p1 opp) opp p1) = keysOf d := by
    rw [keysOf_appendOpp, keysOf_appendOpp]
  have hL := lget_pairStep hne h1 h2
  refine ⟨⟨hkeys ▸ h.1.1, ?_⟩, ?_, ?_, ?_⟩
  · -- no self-opponent
    intro k q hq
    rw [hL k] at hq
    by_cases hk2 : opp = k
    · simp [hk2] at hq
      subst hk2
      rw [← hq]
      simp
      exact ⟨h.1.2 opp pl2 h2, Ne.symm hne⟩
    · by_cases hk1 : p1 = k
      · simp [hk2, hk1] at hq
        subst hk1
        rw [← hq]
        simp
        exact ⟨h.1.2 p1 pl1 h1, hne⟩
      · simp [hk2, hk1] at hq
        exact h.1.2 k q hq
  · -- opponents lists stay duplicate-free
    intro k q hq
    rw [hL k] at hq
    by_cases hk2 : opp = k
    · simp [hk2] at hq
      rw [← hq]
      simp [List.nodup_append]
      exact ⟨h.2.1 opp pl2 (hk2 ▸ h2), havoid2⟩
    · by_cases hk1 : p1 = k
      · simp [hk2, hk1] at hq
        rw [← hq]
        simp [List.nodup_append]
        exact ⟨h.2.1 p1 pl1 (hk1 ▸ h1), havoid1⟩
      · simp [hk2, hk1] at hq
        exact h.2.1 k q hq
  · -- opponents ids remain keys
    intro k q hq x hx
    rw [hkeys]
    rw [hL k] at hq
    by_cases hk2 : opp = k
    · simp [hk2] at hq
      rw [← hq] at hx
      simp at hx
      rcases hx with hx | hx
      · exact h.2.2.1 opp pl2 (hk2 ▸ h2) x hx
      · exact hx ▸ hp1
    · by_cases hk1 : p1 = k
      · simp [hk2, hk1] at hq
        rw [← hq] at hx
        simp at hx
        rcases hx with hx | hx
        · exact h.2.2.1 p1 pl1 (hk1 ▸ h1) x hx
        · exact hx ▸ hopp
      · simp [hk2, hk1] at hq
        exact h.2.2.1 k q hq x hx
  · -- symmetry of the histories
    intro k1 q1 k2 q2 hg1 hg2 hmem
    rw [hL k1] at hg1
    rw [hL k2] at hg2
    have hs2 : opp ∉ pl2.opponents := h.1.2 opp pl2 h2
    have hs1 : p1 ∉ pl1.opponents := h.1.2 p1 pl1 h1
    by_cases e1 : opp = k1
    · rw [if_pos e1] at hg1
      have hq1 := Option.some.inj hg1
      rw [← hq1] at hmem
      simp at hmem
      by_cases f1 : opp = k2
      · exfalso
        rw [← f1] at hmem
        rcases hmem with hmem | hmem
        · exact hs2 hmem
        · exact hne hmem.symm
      · rw [if_neg f1] at hg2
        by_cases f2 : p1 = k2
        · rw [if_pos f2] at hg2
          have hq2 := Option.some.inj hg2
          rw [← hq2]
          simp [← e1]
        · rw [if_neg f2] at hg2
          rcases hmem with hmem | hmem
          · have := h.2.2.2 opp pl2 k2 q2 h2 hg2 hmem
            rw [← e1]
            exact this
          · exact absurd hmem.symm f2
    · rw [if_neg e1] at hg1
      by_cases e2 : p1 = k1
      · rw [if_pos e2] at hg1
        have hq1 := Option.some.inj hg1
        rw [← hq1] at hmem
        simp at hmem
        by_cases f1 : opp = k2
        · rw [if_pos f1] at hg2
          have hq2 := Option.some.inj hg2
          rw [← hq2]
          simp [← e2]
        · rw [if_neg f1] at hg2
          by_cases f2 : p1 = k2
          · exfalso
            rw [← f2] at hmem
            rcases hmem with hmem | hmem
            · exact hs1 hmem
            · exact hne hmem
          · rw [if_neg f2] at hg2
            rcases hmem with hmem | hmem
            · have := h.2.2.2 p1 pl1 k2 q2 h1 hg2 hmem
              rw [← e2]
              exact this
            · exact absurd hmem.symm f1
      · rw [if_neg e2] at hg1
        by_cases f1 : opp = k2
        · rw [if_pos f1] at hg2
          have hq2 := Option.some.inj hg2
          rw [← hq2]
          have := h.2.2.2 k1 q1 opp pl2 hg1 h2 (f1 ▸ hmem)
          simp
          exact Or.inl this
        · rw [if_neg f1] at hg2
          by_cases f2 : p1 = k2
          · rw [if_pos f2] at hg2
            have hq2 := Option.some.inj hg2
            rw [← hq2]
            have := h.2.2.2 k1 q1 p1 pl1 hg1 h1 (f2 ▸ hmem)
            simp
            exact Or.inl this
          · rw [if_neg f2] at hg2
            exact h.2.2.2 k1 q1 k2 q2 hg1 hg2 hmem

theorem add_player_inv {d : League} (uid : String) (h : LeagueInv d) :
    LeagueInv (add_player d uid).1 := by
  unfold add_player
  by_cases hs : (lget d uid).isSome
  · simpa [hs] using h
  · simp [hs]
    exact lset_fresh_inv h (Option.not_isSome_iff_eq_none.mp hs)

theorem add_player_invNR {d : League} (uid : String) (h : LeagueInvNR d) :
    LeagueInvNR (add_player d uid).1 := by
  unfold add_player
  by_cases hs : (lget d uid).isSome
  · simpa [hs] using h
  · simp [hs]
    exact lset_fresh_invNR h (Option.not_isSome_iff_eq_none.mp hs)

theorem add_points_inv {d : League} (uid : String) (pts : Int)
    (h : LeagueInv d) : LeagueInv (add_points d uid pts) := by
  cases hg : lget d uid with
  | some pl =>
      rw [add_points_present pts hg]
      exact lset_same_opps_inv hg rfl h
  | none =>
      rw [add_points_absent pts hg]
      have hg2 : lget (lset d uid ⟨0, [], false⟩) uid =
          some (⟨0, [], false⟩ : Player) := by
        rw [lget_lset]
        simp
      exact lset_same_opps_inv hg2 rfl (lset_fresh_inv h hg)

theorem add_points_invNR {d : League} (uid : String) (pts : Int)
    (h : LeagueInvNR d) : LeagueInvNR (add_points d uid pts) := by
  cases hg : lget d uid with
  | some pl =>
      rw [add_points_present pts hg]
      exact lset_same_opps_invNR hg rfl h
  | none =>
      rw [add_points_absent pts hg]
      have hg2 : lget (lset d uid ⟨0, [], false⟩) uid =
          some (⟨0, [], false⟩ : Player) := by
        rw [lget_lset]
        simp
      exact lset_same_opps_invNR hg2 rfl (lset_fresh_invNR h hg)

theorem setBye_inv {d : League} (uid : String) (h : LeagueInv d) :
    LeagueInv (setBye d uid) := by
  cases hg : lget d uid with
  | some pl =>
      rw [setBye_present hg]
      exact lset_same_opps_inv hg rfl h
  | none =>
      unfold setBye
      rw [hg]
      exact h

theorem setBye_invNR {d : League} (uid : String) (h : LeagueInvNR d) :
    LeagueInvNR (setBye d uid) := by
  cases hg : lget d uid with
  | some pl =>
      rw [setBye_present hg]
      exact lset_same_opps_invNR hg rfl h
  | none =>
      unfold setBye
      rw [hg]
      exact h

theorem remove_player_inv {d : League} (uid : String) (h : LeagueInv d) :
    LeagueInv (remove_player d uid).1 := by
  unfold remove_player
  by_cases hs : (lget d uid).isSome
  · simp [hs]
    refine ⟨keysOf_ldel_nodup h.1, ?_⟩
    intro k pl hg
    rw [lget_ldel h.1] at hg
    by_cases hk : uid = k
    · simp [hk] at hg
    · simp [hk] at hg
      exact h.2 k pl hg
  · simpa [hs] using h

theorem swissLoop_inv :
    ∀ (d : League) (used : List String) (acc : List (String × String))
      (ps : List String), ps.Nodup → LeagueInv d →
      LeagueInv (swissLoop d used acc ps).1 := by
  intro d used acc ps
  induction d, used, acc, ps using swissLoop.induct with
  | case1 d used pairs => intro _ h; exact h
  | case2 d used pairs p1 rest h ih =>
      intro hnd hi
      rw [swissLoop_cons_used h]
      exact ih (List.nodup_cons.mp hnd).2 hi
  | case3 d used pairs p1 rest h1 opp h2 h3 ih =>
      intro hnd hi
      rw [swissLoop_cons_pair h1 h2 h3]
      have hopp : opp ∈ rest := (findOpp_some h2).1
      have hne : p1 ≠ opp := fun he =>
        (List.nodup_cons.mp hnd).1 (he ▸ hopp)
      exact ih (List.nodup_cons.mp hnd).2
        (appendOpp_inv (appendOpp_inv hi hne) (Ne.symm hne))
  | case4 d used pairs p1 rest h1 opp h2 h3 ih =>
      intro hnd hi
      rw [swissLoop_cons_empty h1 (not_ne_iff.mp h3 ▸ h2)]
      exact ih (List.nodup_cons.mp hnd).2 hi
  | case5 d used pairs p1 rest h1 h2 ih =>
      intro hnd hi
      rw [swissLoop_cons_none h1 h2]
      exact ih (List.nodup_cons.mp hnd).2 hi

theorem swissLoop_invNR :
    ∀ (d : League) (used : List String) (acc : List (String × String))
      (ps : List String), ps.Nodup → (∀ p ∈ ps, p ∈ keysOf d) →
      LeagueInvNR d → LeagueInvNR (swissLoop d used acc ps).1 := by
  intro d used acc ps
  induction d, used, acc, ps using swissLoop.induct with
  | case1 d used pairs => intro _ _ h; exact h
  | case2 d used pairs p1 rest h ih =>
      intro hnd hks hi
      rw [swissLoop_cons_used h]
      exact ih (List.nodup_cons.mp hnd).2
        (fun p hp => hks p (List.mem_cons_of_mem _ hp)) hi
  | case3 d used pairs p1 rest h1 opp h2 h3 ih =>
      intro hnd hks hi
      rw [swissLoop_cons_pair h1 h2 h3]
      have hopp : opp ∈ rest := (findOpp_some h2).1
      have hne : p1 ≠ opp := fun he =>
        (List.nodup_cons.mp hnd).1 (he ▸ hopp)
      have hstep := pairStep_invNR hi hne (hks p1 (by simp))
        (hks opp (List.mem_cons_of_mem _ hopp)) (findOpp_some h2).2.2
      refine ih (List.nodup_cons.mp hnd).2 ?_ hstep
      intro p hp
      rw [keysOf_appendOpp, keysOf_appendOpp]
      exact hks p (List.mem_cons_of_mem _ hp)
  | case4 d used pairs p1 rest h1 opp h2 h3 ih =>
      intro hnd hks hi
      rw [swissLoop_cons_empty h1 (not_ne_iff.mp h3 ▸ h2)]
      exact ih (List.nodup_cons.mp hnd).2
        (fun p hp => hks p (List.mem_cons_of_mem _ hp)) hi
  | case5 d used pairs p1 rest h1 h2 ih =>
      intro hnd hks hi
      rw [swissLoop_cons_none h1 h2]
      exact ih (List.nodup_cons.mp hnd).2
        (fun p hp => hks p (List.mem_cons_of_mem _ hp)) hi

theorem swiss_pairings_inv {d : League} (h : LeagueInv d) :
    LeagueInv (swiss_pairings d).1 := by
  have hloop := swissLoop_inv d [] [] (keysOf (standings d))
    (keysOf_standings_nodup h.1) h
  cases hf : (keysOf (standings d)).filter
      (fun p => p ∉ (swissLoop d [] [] (keysOf (standings d))).2.1) with
  | nil =>
      rw [swiss_pairings_of_no_leftover d hf]
      exact hloop
  | cons c cs =>
      rw [swiss_pairings_of_leftover d c cs hf]
      exact setBye_inv c (add_points_inv c 3 hloop)

theorem swiss_pairings_invNR {d : League} (h : LeagueInvNR d) :
    LeagueInvNR (swiss_pairings d).1 := by
  have hloop := swissLoop_invNR d [] [] (keysOf (standings d))
    (keysOf_standings_nodup h.1.1)
    (fun p hp => (keysOf_perm (standings_perm d)).mem_iff.mp hp) h
  cases hf : (keysOf (standings d)).filter
      (fun p => p ∉ (swissLoop d [] [] (keysOf (standings d))).2.1) with
  | nil =>
      rw [swiss_pairings_of_no_leftover d hf]
      exact hloop
  | cons c cs =>
      rw [swiss_pairings_of_leftover d c cs hf]
      exact setBye_invNR c (add_points_invNR c 3 hloop)

theorem reach_inv {d : League} (h : Reach d) : LeagueInv d := by
  induction h with
  | empty => exact ⟨List.nodup_nil, fun k pl hg => by simp [lget] at hg⟩
  | add id _ ih => exact add_player_inv id ih
  | remove id _ ih => exact remove_player_inv id ih
  | points id pts _ ih => exact add_points_inv id pts ih
  | swiss _ ih => exact swiss_pairings_inv ih

theorem reachNR_invNR {d : League} (h : ReachNR d) : LeagueInvNR d := by
  induction h with
  | empty =>
      refine ⟨⟨List.nodup_nil, ?_⟩, ?_, ?_, ?_⟩
      · intro k pl hg
        simp [lget] at hg
      · intro k pl hg
        simp [lget] at hg
      · intro k pl hg
        simp [lget] at hg
      · intro k1 pl1 k2 pl2 hg1 hg2
        simp [lget] at hg1
  | add id _ ih => exact add_player_invNR id ih
  | points id pts _ ih => exact add_points_invNR id pts ih
  | swiss _ ih => exact swiss_pairings_invNR ih

/-- C5, counterexample: a state reachable via add a, add b, pair, remove
a, re-add a, pair in which player b's opponents list is `["a", "a"]` —
a duplicate, violating the claimed invariant. -/
theorem c5_counterexample :
    Reach c5state ∧ lget c5state "b" = some ⟨0, ["a", "a"], false⟩ ∧
    ¬ (["a", "a"] : List String).Nodup :=
  ⟨Reach.swiss (Reach.add "a" (Reach.remove "a" (Reach.swiss
    (Reach.add "b" (Reach.add "a" Reach.empty))))), by decide, by decide⟩

/-- C5, amended: every reachable state has duplicate-free keys and no
player ever lists itself as an opponent; the no-duplicates part of the
claim holds only for states reachable without `remove_player` — removal
leaves dangling ids in other players' opponents lists, and re-adding the
removed player lets a later pairing append a duplicate. -/
theorem c5_amended :
    (∀ d : League, Reach d →
      (keysOf d).Nodup ∧ ∀ e ∈ d, e.1 ∉ e.2.opponents) ∧
    (∀ d : League, ReachNR d →
      ∀ e ∈ d, e.2.opponents.Nodup ∧ e.1 ∉ e.2.opponents) := by
  constructor
  · intro d h
    have hi := reach_inv h
    exact ⟨hi.1, fun e he => hi.2 e.1 e.2 (mem_lget hi.1 he)⟩
  · intro d h
    have hi := reachNR_invNR h
    intro e he
    have hg := mem_lget hi.1.1 he
    exact ⟨hi.2.1 e.1 e.2 hg, hi.1.2 e.1 e.2 hg⟩

/-- C5, witness: the amended theorem applied to concrete reachable
states. -/
theorem c5_witness :
    (keysOf (add_player [] "w").1).Nodup ∧
    (∀ e ∈ (add_player [] "w").1, e.1 ∉ e.2.opponents) ∧
    ∀ e ∈ (swiss_pairings (add_player (add_player [] "w").1 "v").1).1,
      e.2.opponents.Nodup := by
  refine ⟨(c5_amended.1 _ (Reach.add "w" Reach.empty)).1,
    (c5_amended.1 _ (Reach.add "w" Reach.empty)).2, ?_⟩
  intro e he
  exact ((c5_amended.2 _ (ReachNR.swiss (ReachNR.add "v"
    (ReachNR.add "w" ReachNR.empty)))) e he).1
